import Mathlib

/-!
# QuantOS — verification of the risk-managed portfolio pipeline

Shallow embedding, over `ℚ` (exact rational arithmetic standing in for the
program's float64 values), of the core services of the repository:

* `engine/services/portfolio_engine.py` — `_risk_model_for_day`,
  `_apply_turnover_cap`, `build_risk_managed_mom_portfolio`;
* `engine/services/backtest_service.py` — `run_backtest_service`;
* `engine/services/signal_engine.py` — `run_signal_engine` (the signal
  conditioner, downstream of the external alpha stage);
* `engine/services/walkforward_service.py` — `run_walkforward`.

DataFrames keyed by (date, ticker) are embedded as lists of row structures;
per-date `groupby` cross-sections as lists of rows sharing a date; dates as
integers (trading-day ordinals).  Optional / NaN-able columns are `Option`
fields, with the pandas convention that any comparison against NaN is false
and `fillna` replaces `none` by the given default.
-/

set_option maxHeartbeats 4000000
set_option maxRecDepth 4000

namespace Quantos

/-- Absolute value, written out so that concrete inputs reduce inside the
kernel (Mathlib's lattice-based `|·|` on `ℚ` does not). -/
def absQ (x : ℚ) : ℚ := if x < 0 then -x else x

theorem absQ_eq_abs (x : ℚ) : absQ x = |x| := by
  unfold absQ
  split_ifs with h
  · rw [abs_of_neg h]
  · rw [abs_of_nonneg (le_of_not_lt h)]

/-! ## Configuration constants of `portfolio_engine.py` -/

def MAX_WEIGHT_PER_ASSET : ℚ := 1/4

def REGIME_GROSS_ON : ℚ := 1

def REGIME_GROSS_OFF : ℚ := 1/4

def MAX_GROSS : ℚ := 1

def TURNOVER_CAP_PER_DAY : ℚ := 1/20

def MIN_ACTIVE_ASSETS : ℕ := 4

/-! ## `_risk_model_for_day`

One call of `_risk_model_for_day` receives the cross-section of one date
(`df.groupby("date")`).  `hasVol` / `hasRegime` model the pandas checks
`"vol_20" in day.columns` / `"regime" in day.columns`; a `none` in the
`vol` field models a NaN entry of the `vol_20` column. -/

/-- One row of a single date's cross-section entering `_risk_model_for_day`:
ticker, `raw_signal`, `vol_20` (NaN-able) and `regime`. -/
structure DayRow where
  ticker : String
  signal : ℚ
  vol : Option ℚ
  regime : ℚ
deriving DecidableEq

/-- `reg = day["regime"].iloc[0] if "regime" in day.columns else 1.0`;
`gross_target = REGIME_GROSS_ON if reg > 0 else REGIME_GROSS_OFF`. -/
def grossTarget (hasRegime : Bool) (day : List DayRow) : ℚ :=
  if 0 < (if hasRegime then (day.head?.map DayRow.regime).getD 1 else 1) then
    REGIME_GROSS_ON
  else REGIME_GROSS_OFF

/-- `n_active = (sig > 0).sum() + (sig < 0).sum()`. -/
def nActive (day : List DayRow) : ℕ :=
  (day.filter (fun r => decide (0 < r.signal))).length
    + (day.filter (fun r => decide (r.signal < 0))).length

/-- `inv_vol = (1.0 / vol).replace([inf,-inf], nan).fillna(0.0)` when the
`vol_20` column exists (with `vol.replace(0.0, nan)` first, so a zero or NaN
volatility yields scale 0), else a constant scale of 1. -/
def scaleOf (hasVol : Bool) (v : Option ℚ) : ℚ :=
  if hasVol then
    match v with
    | none => 0
    | some x => if x = 0 then 0 else 1 / x
  else 1

/-- `raw = scale * sig.abs()`. -/
def rawMagnitude (hasVol : Bool) (r : DayRow) : ℚ :=
  scaleOf hasVol r.vol * absQ r.signal

/-- `long_sum = raw[longs].sum()`. -/
def longSum (hasVol : Bool) (day : List DayRow) : ℚ :=
  ((day.filter (fun r => decide (0 < r.signal))).map (rawMagnitude hasVol)).sum

/-- `short_sum = raw[shorts].sum()`. -/
def shortSum (hasVol : Bool) (day : List DayRow) : ℚ :=
  ((day.filter (fun r => decide (r.signal < 0))).map (rawMagnitude hasVol)).sum

/-- Steps 2-3 of `_risk_model_for_day` for one asset: the leg-normalized
pre-clip `weight_target` (zero when the row is in neither leg or its leg has
no positive capacity). -/
def legWeight (hasVol hasRegime : Bool) (day : List DayRow) (r : DayRow) : ℚ :=
  let gt := grossTarget hasRegime day
  if 0 < r.signal ∧ 0 < longSum hasVol day then
    rawMagnitude hasVol r / longSum hasVol day * (gt / 2)
  else if r.signal < 0 ∧ 0 < shortSum hasVol day then
    -(rawMagnitude hasVol r) / shortSum hasVol day * (gt / 2)
  else 0

/-- Step 4: `clip(lower=-MAX_WEIGHT_PER_ASSET, upper=MAX_WEIGHT_PER_ASSET)`. -/
def clipAsset (w : ℚ) : ℚ :=
  if w < -MAX_WEIGHT_PER_ASSET then -MAX_WEIGHT_PER_ASSET
  else if MAX_WEIGHT_PER_ASSET < w then MAX_WEIGHT_PER_ASSET
  else w

/-- The cross-section after step 4 (per-asset cap), before the gross
renormalization of steps 5-6. -/
def riskWeightsClipped (hasVol hasRegime : Bool) (day : List DayRow) :
    List (String × ℚ) :=
  day.map (fun r => (r.ticker, clipAsset (legWeight hasVol hasRegime day r)))

/-- `Σ |weight|` of a (ticker, weight) cross-section. -/
def grossOf (ws : List (String × ℚ)) : ℚ :=
  (ws.map (fun p => absQ p.2)).sum

/-- `_risk_model_for_day`: breadth gate, leg allocation, per-asset clip,
renormalization of the gross to `gross_target` (step 5), and the final hard
gross cap (step 6).  Output: the (ticker, `weight`) column of the date. -/
def riskModelForDay (hasVol hasRegime : Bool) (day : List DayRow) :
    List (String × ℚ) :=
  if nActive day < MIN_ACTIVE_ASSETS then day.map (fun r => (r.ticker, 0))
  else
    let gt := grossTarget hasRegime day
    let ws := riskWeightsClipped hasVol hasRegime day
    let gross := grossOf ws
    let ws2 := if 0 < gross then ws.map (fun p => (p.1, p.2 * (gt / gross))) else ws
    let gross2 := grossOf ws2
    if MAX_GROSS < gross2 ∧ 0 < gross2 then
      ws2.map (fun p => (p.1, p.2 * (MAX_GROSS / gross2)))
    else ws2

/-! ### Generic facts about `grossOf` -/

theorem grossOf_eq (ws : List (String × ℚ)) :
    grossOf ws = (ws.map (fun p => |p.2|)).sum := by
  unfold grossOf
  simp only [absQ_eq_abs]

theorem grossOf_nonneg (ws : List (String × ℚ)) : 0 ≤ grossOf ws := by
  rw [grossOf_eq]
  apply List.sum_nonneg
  intro x hx
  obtain ⟨q, _, rfl⟩ := List.mem_map.mp hx
  exact abs_nonneg _

theorem grossOf_scale (ws : List (String × ℚ)) (c : ℚ) :
    grossOf (ws.map (fun p => (p.1, p.2 * c))) = grossOf ws * |c| := by
  rw [grossOf_eq, grossOf_eq]
  induction ws with
  | nil => simp
  | cons p ps ih =>
    simp only [List.map_cons, List.sum_cons, abs_mul] at *
    rw [ih]
    ring

theorem grossOf_zero_weights (day : List DayRow) :
    grossOf (day.map (fun r => (r.ticker, (0 : ℚ)))) = 0 := by
  rw [grossOf_eq]
  induction day with
  | nil => simp
  | cons r rs ih => simpa using ih

theorem abs_le_grossOf {ws : List (String × ℚ)} {p : String × ℚ} (hp : p ∈ ws) :
    |p.2| ≤ grossOf ws := by
  rw [grossOf_eq]
  refine List.single_le_sum ?_ _ (List.mem_map_of_mem _ hp)
  intro x hx
  obtain ⟨q, _, rfl⟩ := List.mem_map.mp hx
  exact abs_nonneg _

theorem grossTarget_pos (hasRegime : Bool) (day : List DayRow) :
    0 < grossTarget hasRegime day := by
  unfold grossTarget REGIME_GROSS_ON REGIME_GROSS_OFF
  split_ifs <;> norm_num

theorem grossTarget_le_one (hasRegime : Bool) (day : List DayRow) :
    grossTarget hasRegime day ≤ 1 := by
  unfold grossTarget REGIME_GROSS_ON REGIME_GROSS_OFF
  split_ifs <;> norm_num

/-- Helper for claims C6 and C7: the cross-section emitted by
`_risk_model_for_day` always has gross exposure at most `MAX_GROSS`. -/
theorem riskModelForDay_gross_le (hasVol hasRegime : Bool) (day : List DayRow) :
    grossOf (riskModelForDay hasVol hasRegime day) ≤ MAX_GROSS := by
  unfold riskModelForDay
  split
  · rw [grossOf_zero_weights]; unfold MAX_GROSS; norm_num
  · set gt := grossTarget hasRegime day with hgt
    set ws := riskWeightsClipped hasVol hasRegime day with hws
    by_cases hg : 0 < grossOf ws
    · have hscaled :
          grossOf (ws.map (fun p => (p.1, p.2 * (gt / grossOf ws)))) = gt := by
        rw [grossOf_scale]
        rw [abs_of_pos (div_pos (grossTarget_pos hasRegime day) hg)]
        field_simp
      simp only [if_pos hg, hscaled]
      have hle : gt ≤ 1 := grossTarget_le_one hasRegime day
      have : ¬ (MAX_GROSS < gt ∧ 0 < gt) := by
        unfold MAX_GROSS
        rintro ⟨h1, _⟩
        linarith
      rw [if_neg this, hscaled]
      unfold MAX_GROSS
      exact hle
    · simp only [if_neg hg]
      have : ¬ (MAX_GROSS < grossOf ws ∧ 0 < grossOf ws) := by
        rintro ⟨_, h2⟩
        exact hg h2
      rw [if_neg this]
      have h0 : grossOf ws ≤ 0 := le_of_not_lt hg
      have := grossOf_nonneg ws
      unfold MAX_GROSS
      linarith

theorem abs_clipAsset_le (w : ℚ) : |clipAsset w| ≤ MAX_WEIGHT_PER_ASSET := by
  unfold clipAsset MAX_WEIGHT_PER_ASSET
  rw [abs_le]
  split_ifs with h1 h2 <;> constructor <;> linarith

/-- The cross-section used against claim C7: four active assets (so the
breadth gate passes), signals 0.9, 0.1, -0.9, -0.1, no `vol_20` and no
`regime` column.  The per-asset clip caps the 0.45 legs at 0.25, after which
step 5 rescales the gross from 0.6 back to 1.0, pushing the big weights to
5/12 > 1/4. -/
def c7day : List DayRow :=
  [⟨"A", 9/10, none, 1⟩, ⟨"B", 1/10, none, 1⟩,
   ⟨"C", -(9/10), none, 1⟩, ⟨"D", -(1/10), none, 1⟩]

/-- C7, counterexample: on `c7day` the Risk Model emits weight 5/12 for
asset A, which exceeds the per-asset cap `MAX_WEIGHT_PER_ASSET = 0.25` in
magnitude, refuting the claim that every emitted `weight_target` is bounded
by the per-asset cap. -/
theorem c7_counterexample :
    (riskModelForDay false false c7day).map Prod.snd
        = [5/12, 1/12, -(5/12), -(1/12)] ∧
      ¬ |(5 : ℚ)/12| ≤ MAX_WEIGHT_PER_ASSET := by
  constructor
  · norm_num [riskModelForDay, c7day, nActive, MIN_ACTIVE_ASSETS, riskWeightsClipped,
      legWeight, grossTarget, longSum, shortSum, rawMagnitude, scaleOf, clipAsset,
      grossOf, absQ, MAX_GROSS, MAX_WEIGHT_PER_ASSET, REGIME_GROSS_ON, REGIME_GROSS_OFF]
  · rw [MAX_WEIGHT_PER_ASSET, abs_of_pos (by norm_num)]
    norm_num

/-- C7 (amended): the per-asset cap holds for the intermediate cross-section
produced by step 4 of `_risk_model_for_day` (the `clip` to
±`MAX_WEIGHT_PER_ASSET`); the gross renormalization of step 5 can then scale
weights past the per-asset cap, and the weight finally emitted is only
guaranteed bounded in magnitude by the portfolio gross cap `MAX_GROSS`. -/
theorem c7_amended_per_asset_cap (hasVol hasRegime : Bool) (day : List DayRow) :
    (∀ p ∈ riskWeightsClipped hasVol hasRegime day, |p.2| ≤ MAX_WEIGHT_PER_ASSET) ∧
    (∀ p ∈ riskModelForDay hasVol hasRegime day, |p.2| ≤ MAX_GROSS) := by
  constructor
  · intro p hp
    obtain ⟨r, _, rfl⟩ := List.mem_map.mp hp
    exact abs_clipAsset_le _
  · intro p hp
    exact le_trans (abs_le_grossOf hp) (riskModelForDay_gross_le hasVol hasRegime day)

/-- Witness for `c7_amended_per_asset_cap` at the concrete cross-section
`c7day`. -/
theorem c7_amended_witness :
    (("A", (1 : ℚ)/4) ∈ riskWeightsClipped false false c7day ∧
        |(("A", (1 : ℚ)/4)).2| ≤ MAX_WEIGHT_PER_ASSET) ∧
    (("A", (5 : ℚ)/12) ∈ riskModelForDay false false c7day ∧
        |(("A", (5 : ℚ)/12)).2| ≤ MAX_GROSS) := by
  have h1 : riskWeightsClipped false false c7day
      = ("A", (1 : ℚ)/4) :: [("B", 1/20), ("C", -(1/4)), ("D", -(1/20))] := by
    norm_num [riskWeightsClipped, c7day, legWeight, grossTarget, longSum, shortSum,
      rawMagnitude, scaleOf, clipAsset, absQ, MAX_WEIGHT_PER_ASSET, REGIME_GROSS_ON,
      REGIME_GROSS_OFF]
  have h2 : riskModelForDay false false c7day
      = ("A", (5 : ℚ)/12) :: [("B", 1/12), ("C", -(5/12)), ("D", -(1/12))] := by
    norm_num [riskModelForDay, c7day, nActive, MIN_ACTIVE_ASSETS, riskWeightsClipped,
      legWeight, grossTarget, longSum, shortSum, rawMagnitude, scaleOf, clipAsset,
      grossOf, absQ, MAX_GROSS, MAX_WEIGHT_PER_ASSET, REGIME_GROSS_ON, REGIME_GROSS_OFF]
  have hm1 : ("A", (1 : ℚ)/4) ∈ riskWeightsClipped false false c7day := by
    rw [h1]; exact List.mem_cons_self _ _
  have hm2 : ("A", (5 : ℚ)/12) ∈ riskModelForDay false false c7day := by
    rw [h2]; exact List.mem_cons_self _ _
  exact ⟨⟨hm1, (c7_amended_per_asset_cap false false c7day).1 _ hm1⟩,
         ⟨hm2, (c7_amended_per_asset_cap false false c7day).2 _ hm2⟩⟩

/-! ## `_apply_turnover_cap`

The governor walks the date groups in ascending order, carrying the
per-asset dictionaries `prev_w` and `hold_days` across dates.  Its
minimum-holding branch reads the name `MIN_HOLD_DAYS`, which is defined
nowhere in the program: in Python the guard
`if prev != 0.0 and hd < MIN_HOLD_DAYS` short-circuits, so the lookup of
`MIN_HOLD_DAYS` — and hence an uncaught `NameError` — happens exactly when
`prev != 0.0`.  The embedding returns `Except.error nameErrorMsg` at that
point and otherwise follows the `else` branch of the loop body. -/

def nameErrorMsg : String := "NameError: name MIN_HOLD_DAYS is not defined"

/-- `np.sign`. -/
def signQ (x : ℚ) : ℚ := if 0 < x then 1 else if x < 0 then -1 else 0

/-- The turnover clamp of the `else` branch:
`adj = prev + sign(delta) * max_turnover` when `|delta| > max_turnover`,
else `adj = target`. -/
def clampStep (prev target maxT : ℚ) : ℚ :=
  if maxT < absQ (target - prev) then prev + signQ (target - prev) * maxT
  else target

/-- The per-asset dictionaries `prev_w` and `hold_days` (with their
`.get(t, 0)` defaults as total functions). -/
structure TState where
  prevW : String → ℚ
  hold : String → ℕ

/-- Pointwise dictionary write `d[t] = v`. -/
def updF {α : Type} (f : String → α) (t : String) (v : α) : String → α :=
  fun u => if u = t then v else f u

theorem updF_same {α : Type} (f : String → α) (t : String) (v : α) :
    updF f t v t = v := by simp [updF]

theorem updF_other {α : Type} (f : String → α) (t u : String) (v : α)
    (h : u ≠ t) : updF f t v u = f u := by simp [updF, h]

/-- One row of the inner loop of `_apply_turnover_cap`: raises `NameError`
when the carried previous weight is nonzero (the `MIN_HOLD_DAYS` lookup),
otherwise applies the turnover clamp and updates the dictionaries. -/
def processRow (maxT : ℚ) (s : TState) (t : String) (target : ℚ) :
    Except String (ℚ × TState) :=
  if s.prevW t ≠ 0 then Except.error nameErrorMsg
  else
    let adj := clampStep (s.prevW t) target maxT
    let hold2 : ℕ :=
      if s.prevW t = 0 ∧ adj ≠ 0 then 1
      else if adj = 0 then 0
      else s.hold t + 1
    Except.ok (adj, ⟨updF s.prevW t adj, updF s.hold t hold2⟩)

/-- The inner loop over one date's rows (in the given row order). -/
def dayFold (maxT : ℚ) : TState → List (String × ℚ) →
    Except String (List ℚ × TState)
  | s, [] => Except.ok ([], s)
  | s, (t, w) :: rows =>
    match processRow maxT s t w with
    | Except.error e => Except.error e
    | Except.ok (adj, s2) =>
      match dayFold maxT s2 rows with
      | Except.error e => Except.error e
      | Except.ok (ws, s3) => Except.ok (adj :: ws, s3)

/-- The final per-date gross cap: `w / gross * MAX_GROSS` when
`gross > MAX_GROSS` (and `gross > 0`). -/
def finishDay (ws : List ℚ) : List ℚ :=
  let gross := (ws.map absQ).sum
  if MAX_GROSS < gross ∧ 0 < gross then ws.map (fun w => w / gross * MAX_GROSS)
  else ws

/-- One date of `_apply_turnover_cap`: the row loop followed by the final
gross cap, reattaching the tickers. -/
def runDay (maxT : ℚ) (s : TState) (g : List (String × ℚ)) :
    Except String (List (String × ℚ) × TState) :=
  match dayFold maxT s g with
  | Except.error e => Except.error e
  | Except.ok (ws, s2) => Except.ok ((g.map Prod.fst).zip (finishDay ws), s2)

/-- The date loop of `_apply_turnover_cap`. -/
def runGroups (maxT : ℚ) : TState → List (List (String × ℚ)) →
    Except String (List (List (String × ℚ)))
  | _, [] => Except.ok []
  | s, g :: gs =>
    match runDay maxT s g with
    | Except.error e => Except.error e
    | Except.ok (dg, s2) =>
      match runGroups maxT s2 gs with
      | Except.error e => Except.error e
      | Except.ok rest => Except.ok (dg :: rest)

def initState : TState := ⟨fun _ => 0, fun _ => 0⟩

/-- `_apply_turnover_cap(df, max_turnover)`: the input is already grouped
into date-ascending cross-sections of (ticker, target-weight) rows. -/
def applyTurnoverCap (maxT : ℚ) (groups : List (List (String × ℚ))) :
    Except String (List (List (String × ℚ))) :=
  runGroups maxT initState groups

/-- `build_risk_managed_mom_portfolio`: per-date risk model, then the
turnover governor with `TURNOVER_CAP_PER_DAY`. -/
def buildRiskManagedMomPortfolio (hasVol hasRegime : Bool)
    (days : List (List DayRow)) : Except String (List (List (String × ℚ))) :=
  applyTurnoverCap TURNOVER_CAP_PER_DAY (days.map (riskModelForDay hasVol hasRegime))

/-- `t` has a row in one of the groups. -/
def appears (t : String) (gs : List (List (String × ℚ))) : Bool :=
  gs.any (fun g => g.any (fun p => decide (p.1 = t)))

/-- Input-level characterization of the runs on which `_apply_turnover_cap`
never evaluates `MIN_HOLD_DAYS`: every row whose ticker has another row on a
later date carries a zero target weight (so the stored previous weight that
the later row reads is zero). -/
def noCarriedWeight : List (List (String × ℚ)) → Bool
  | [] => true
  | g :: gs =>
    (g.all fun p => (!appears p.1 gs) || decide (p.2 = 0)) && noCarriedWeight gs

/-! ### Facts about the turnover governor -/

/-- Dictionary lookup in one date group (first row of a ticker). -/
def lookupQ (t : String) : List (String × ℚ) → Option ℚ
  | [] => none
  | p :: ps => if p.1 = t then some p.2 else lookupQ t ps

theorem lookupQ_eq_none {t : String} {g : List (String × ℚ)}
    (h : t ∉ g.map Prod.fst) : lookupQ t g = none := by
  induction g with
  | nil => rfl
  | cons p ps ih =>
    simp only [List.map_cons, List.mem_cons] at h
    push_neg at h
    simp only [lookupQ, if_neg (Ne.symm h.1)]
    exact ih h.2

theorem lookupQ_some_mem {t : String} {g : List (String × ℚ)} {w : ℚ}
    (h : lookupQ t g = some w) : (t, w) ∈ g := by
  induction g with
  | nil => simp [lookupQ] at h
  | cons p ps ih =>
    simp only [lookupQ] at h
    split_ifs at h with hp
    · obtain ⟨rfl⟩ := Option.some_inj.mp h
      rw [← hp]
      exact List.mem_cons_self _ _
    · exact List.mem_cons_of_mem _ (ih h)

theorem lookupQ_of_mem {g : List (String × ℚ)} {p : String × ℚ}
    (hnd : (g.map Prod.fst).Nodup) (hp : p ∈ g) : lookupQ p.1 g = some p.2 := by
  induction g with
  | nil => simp at hp
  | cons q ps ih =>
    rw [List.map_cons, List.nodup_cons] at hnd
    rcases List.mem_cons.mp hp with rfl | hmem
    · simp [lookupQ]
    · have hne : q.1 ≠ p.1 := by
        intro he
        exact hnd.1 (he ▸ List.mem_map_of_mem Prod.fst hmem)
      simp only [lookupQ, if_neg hne]
      exact ih hnd.2 hmem

theorem clampStep_from_zero {maxT : ℚ} (h : 0 < maxT) (target : ℚ) :
    (clampStep 0 target maxT = 0 ↔ target = 0) := by
  unfold clampStep signQ absQ
  simp only [sub_zero, zero_add]
  split_ifs with h1 h2 h3 <;> constructor <;> intro h0 <;>
    first
      | linarith
      | nlinarith
      | (exfalso; simp only [h0] at h1; simp at h1; linarith)

theorem processRow_error_of_nonzero {maxT : ℚ} {s : TState} {t : String}
    (w : ℚ) (h : s.prevW t ≠ 0) :
    processRow maxT s t w = Except.error nameErrorMsg := by
  unfold processRow
  rw [if_pos h]

theorem processRow_ok_of_zero (maxT : ℚ) (s : TState) (t : String) (w : ℚ)
    (h : s.prevW t = 0) :
    ∃ hd, processRow maxT s t w =
      Except.ok (clampStep 0 w maxT,
        ⟨updF s.prevW t (clampStep 0 w maxT), updF s.hold t hd⟩) := by
  unfold processRow
  rw [if_neg (by simp [h]), h]
  exact ⟨_, rfl⟩

theorem processRow_ok_inv {maxT : ℚ} {s : TState} {t : String} {w adj : ℚ}
    {s2 : TState} (h : processRow maxT s t w = Except.ok (adj, s2)) :
    s.prevW t = 0 ∧ adj = clampStep 0 w maxT ∧ s2.prevW = updF s.prevW t adj := by
  unfold processRow at h
  split_ifs at h with hp
  · push_neg at hp
    rw [hp] at h
    injection h with h2
    injection h2 with ha hb
    subst ha
    exact ⟨hp, rfl, by rw [← hb]⟩

theorem processRow_error_inv {maxT : ℚ} {s : TState} {t : String} {w : ℚ}
    {e : String} (h : processRow maxT s t w = Except.error e) :
    e = nameErrorMsg := by
  unfold processRow at h
  split_ifs at h with hp
  · injection h with h'
    exact h'.symm

/-- When every row of the date reads a zero carried weight (and tickers are
unique within the date), the inner loop succeeds, and afterwards the stored
previous weight of a ticker with a row this date is the clamp of its target
from zero, all others being untouched. -/
theorem dayFold_ok_of_zero (maxT : ℚ) (g : List (String × ℚ)) : ∀ s : TState,
    (g.map Prod.fst).Nodup → (∀ p ∈ g, s.prevW p.1 = 0) →
    ∃ ws s2, dayFold maxT s g = Except.ok (ws, s2) ∧
      ∀ u, s2.prevW u = (match lookupQ u g with
        | some w => clampStep 0 w maxT
        | none => s.prevW u) := by
  induction g with
  | nil =>
    intro s _ _
    exact ⟨[], s, rfl, fun u => rfl⟩
  | cons q rows ih =>
    rintro s hnd hz
    obtain ⟨t, w⟩ := q
    rw [List.map_cons, List.nodup_cons] at hnd
    have hpt : s.prevW t = 0 := hz (t, w) (List.mem_cons_self _ _)
    obtain ⟨hd, hpr⟩ := processRow_ok_of_zero maxT s t w hpt
    have hz2 : ∀ p ∈ rows,
        (TState.mk (updF s.prevW t (clampStep 0 w maxT)) (updF s.hold t hd)).prevW p.1
          = 0 := by
      intro p hp
      have hqt : p.1 ≠ t := by
        intro he
        have hm : p.1 ∈ rows.map Prod.fst := List.mem_map_of_mem Prod.fst hp
        rw [he] at hm
        exact hnd.1 hm
      show updF s.prevW t (clampStep 0 w maxT) p.1 = 0
      rw [updF_other _ _ _ _ hqt]
      exact hz p (List.mem_cons_of_mem _ hp)
    obtain ⟨ws, s3, hfold, hchar⟩ := ih _ hnd.2 hz2
    refine ⟨clampStep 0 w maxT :: ws, s3, ?_, ?_⟩
    · simp only [dayFold, hpr, hfold]
    · intro u
      have hcu := hchar u
      by_cases htu : t = u
      · subst htu
        have hnone : lookupQ t rows = none := lookupQ_eq_none hnd.1
        rw [hnone] at hcu
        have hcu2 : s3.prevW t = updF s.prevW t (clampStep 0 w maxT) t := hcu
        rw [updF_same] at hcu2
        simp [lookupQ, hcu2]
      · simp only [lookupQ, if_neg htu]
        rcases hl : lookupQ u rows with _ | w'
        · rw [hl] at hcu
          exact hcu.trans (updF_other _ _ _ _ (fun he => htu he.symm))
        · rw [hl] at hcu
          exact hcu

/-- If some row of the date reads a nonzero carried weight, the inner loop
raises the `MIN_HOLD_DAYS` `NameError`. -/
theorem dayFold_error_of_nonzero (maxT : ℚ) (g : List (String × ℚ)) :
    ∀ s : TState, (g.map Prod.fst).Nodup → (∃ p ∈ g, s.prevW p.1 ≠ 0) →
    dayFold maxT s g = Except.error nameErrorMsg := by
  induction g with
  | nil =>
    rintro s _ ⟨p, hp, _⟩
    simp at hp
  | cons q rows ih =>
    rintro s hnd ⟨p, hp, hpnz⟩
    obtain ⟨t, w⟩ := q
    rw [List.map_cons, List.nodup_cons] at hnd
    by_cases hzt : s.prevW t = 0
    · have hprows : p ∈ rows := by
        rcases List.mem_cons.mp hp with rfl | h
        · exact absurd hzt hpnz
        · exact h
      obtain ⟨hd, hpr⟩ := processRow_ok_of_zero maxT s t w hzt
      have hqt : p.1 ≠ t := by
        intro he
        have hm : p.1 ∈ rows.map Prod.fst := List.mem_map_of_mem Prod.fst hprows
        rw [he] at hm
        exact hnd.1 hm
      have hnz2 :
          (TState.mk (updF s.prevW t (clampStep 0 w maxT)) (updF s.hold t hd)).prevW p.1
            ≠ 0 := by
        show updF s.prevW t (clampStep 0 w maxT) p.1 ≠ 0
        rw [updF_other _ _ _ _ hqt]
        exact hpnz
      have hrec := ih _ hnd.2 ⟨p, hprows, hnz2⟩
      simp only [dayFold, hpr, hrec]
    · have herr := @processRow_error_of_nonzero maxT _ _ w hzt
      simp only [dayFold, herr]

/-- A successful inner loop leaves the carried weight of every ticker
without a row this date unchanged. -/
theorem dayFold_ok_not_mem (maxT : ℚ) (g : List (String × ℚ)) :
    ∀ (s : TState) (ws : List ℚ) (s2 : TState),
    dayFold maxT s g = Except.ok (ws, s2) →
    ∀ u, u ∉ g.map Prod.fst → s2.prevW u = s.prevW u := by
  induction g with
  | nil =>
    intro s ws s2 h u _
    injection h with h'
    injection h' with _ hb
    rw [← hb]
  | cons q rows ih =>
    intro s ws s2 h u hu
    obtain ⟨t, w⟩ := q
    simp only [List.map_cons, List.mem_cons] at hu
    push_neg at hu
    cases hpr : processRow maxT s t w with
    | error e =>
      simp only [dayFold, hpr] at h
      exact Except.noConfusion h
    | ok pr =>
      obtain ⟨adj, s1⟩ := pr
      cases hdf : dayFold maxT s1 rows with
      | error e =>
        simp only [dayFold, hpr, hdf] at h
        exact Except.noConfusion h
      | ok pr2 =>
        obtain ⟨ws', s3⟩ := pr2
        simp only [dayFold, hpr, hdf, Except.ok.injEq, Prod.mk.injEq] at h
        rw [← h.2]
        obtain ⟨_, _, hprev⟩ := processRow_ok_inv hpr
        rw [ih s1 ws' s3 hdf u hu.2, hprev, updF_other _ _ _ _ hu.1]

/-- The only error the inner loop can produce is the `MIN_HOLD_DAYS`
`NameError`. -/
theorem dayFold_error_msg (maxT : ℚ) (g : List (String × ℚ)) :
    ∀ (s : TState) (e : String), dayFold maxT s g = Except.error e →
    e = nameErrorMsg := by
  induction g with
  | nil =>
    intro s e h
    exact absurd h (by simp [dayFold])
  | cons q rows ih =>
    intro s e h
    obtain ⟨t, w⟩ := q
    cases hpr : processRow maxT s t w with
    | error e' =>
      simp only [dayFold, hpr] at h
      injection h with h'
      rw [← h']
      exact processRow_error_inv hpr
    | ok pr =>
      obtain ⟨adj, s1⟩ := pr
      cases hdf : dayFold maxT s1 rows with
      | error e' =>
        simp only [dayFold, hpr, hdf] at h
        injection h with h'
        rw [← h']
        exact ih s1 e' hdf
      | ok pr2 =>
        obtain ⟨ws', s3⟩ := pr2
        simp only [dayFold, hpr, hdf] at h
        exact Except.noConfusion h

theorem runDay_error_msg (maxT : ℚ) (g : List (String × ℚ)) (s : TState)
    (e : String) (h : runDay maxT s g = Except.error e) : e = nameErrorMsg := by
  unfold runDay at h
  cases hdf : dayFold maxT s g with
  | error e' =>
    rw [hdf] at h
    injection h with h'
    rw [← h']
    exact dayFold_error_msg maxT g s e' hdf
  | ok pr =>
    rw [hdf] at h
    exact Except.noConfusion h

theorem runDay_ok_inv {maxT : ℚ} {s : TState} {g dg : List (String × ℚ)}
    {s2 : TState} (h : runDay maxT s g = Except.ok (dg, s2)) :
    ∃ ws, dayFold maxT s g = Except.ok (ws, s2) ∧
      dg = (g.map Prod.fst).zip (finishDay ws) := by
  unfold runDay at h
  cases hdf : dayFold maxT s g with
  | error e =>
    rw [hdf] at h
    exact Except.noConfusion h
  | ok pr =>
    obtain ⟨ws, s3⟩ := pr
    rw [hdf] at h
    injection h with h'
    injection h' with h1 h2
    subst h2
    exact ⟨ws, rfl, h1.symm⟩

theorem appears_head {g : List (String × ℚ)} {gs : List (List (String × ℚ))}
    {p : String × ℚ} (hp : p ∈ g) : appears p.1 (g :: gs) = true := by
  unfold appears
  rw [List.any_cons]
  apply Bool.or_eq_true_iff.mpr
  left
  rw [List.any_eq_true]
  exact ⟨p, hp, by simp⟩

theorem appears_tail {t : String} {g : List (String × ℚ)}
    {gs : List (List (String × ℚ))} (h : appears t gs = true) :
    appears t (g :: gs) = true := by
  unfold appears at *
  rw [List.any_cons]
  exact Bool.or_eq_true_iff.mpr (Or.inr h)

theorem appears_cons_elim {t : String} {g : List (String × ℚ)}
    {gs : List (List (String × ℚ))} (h : appears t (g :: gs) = true) :
    (∃ p ∈ g, p.1 = t) ∨ appears t gs = true := by
  unfold appears at h
  rw [List.any_cons, Bool.or_eq_true] at h
  rcases h with h | h
  · left
    rw [List.any_eq_true] at h
    obtain ⟨p, hp, hd⟩ := h
    exact ⟨p, hp, of_decide_eq_true hd⟩
  · right
    exact h

/-- If some ticker still to come carries a nonzero stored weight, the date
loop ends in the `MIN_HOLD_DAYS` `NameError`. -/
theorem runGroups_error_of_appears (maxT : ℚ) (gs : List (List (String × ℚ))) :
    ∀ s : TState, (∀ g ∈ gs, (g.map Prod.fst).Nodup) →
    (∃ t, appears t gs = true ∧ s.prevW t ≠ 0) →
    runGroups maxT s gs = Except.error nameErrorMsg := by
  induction gs with
  | nil =>
    rintro s _ ⟨t, ht, _⟩
    simp [appears] at ht
  | cons g rest ih =>
    rintro s hnd ⟨t, ht, hnz⟩
    have hndg := hnd g (List.mem_cons_self _ _)
    by_cases hg : ∃ p ∈ g, p.1 = t
    · obtain ⟨p, hp, rfl⟩ := hg
      have hdf := dayFold_error_of_nonzero maxT g s hndg ⟨p, hp, hnz⟩
      simp only [runGroups, runDay, hdf]
    · have htn : t ∉ g.map Prod.fst := by
        intro hm
        obtain ⟨p, hp, he⟩ := List.mem_map.mp hm
        exact hg ⟨p, hp, he⟩
      have htrest : appears t rest = true := by
        rcases appears_cons_elim ht with h | h
        · exact absurd h hg
        · exact h
      cases hrd : runDay maxT s g with
      | error e =>
        have he := runDay_error_msg maxT g s e hrd
        rw [he] at hrd
        simp only [runGroups, hrd]
      | ok pr =>
        obtain ⟨dg, s2⟩ := pr
        obtain ⟨ws, hdf, _⟩ := runDay_ok_inv hrd
        have hs2 : s2.prevW t = s.prevW t :=
          dayFold_ok_not_mem maxT g s ws s2 hdf t htn
        have hrec := ih s2 (fun g' hg' => hnd g' (List.mem_cons_of_mem _ hg'))
          ⟨t, htrest, by rw [hs2]; exact hnz⟩
        simp only [runGroups, hrd, hrec]

/-- Main characterization of `_apply_turnover_cap` (claim C2): with a
positive turnover cap and unique tickers within each date, the governor
completes iff no row whose ticker reappears later carries a nonzero target,
and otherwise dies with the `MIN_HOLD_DAYS` `NameError`. -/
theorem runGroups_cases (maxT : ℚ) (hm : 0 < maxT)
    (gs : List (List (String × ℚ))) : ∀ s : TState,
    (∀ g ∈ gs, (g.map Prod.fst).Nodup) →
    (∀ t, appears t gs = true → s.prevW t = 0) →
    (noCarriedWeight gs = true → ∃ out, runGroups maxT s gs = Except.ok out) ∧
    (noCarriedWeight gs = false → runGroups maxT s gs = Except.error nameErrorMsg) := by
  induction gs with
  | nil =>
    intro s _ _
    constructor
    · intro _
      exact ⟨[], rfl⟩
    · intro h
      simp [noCarriedWeight] at h
  | cons g rest ih =>
    intro s hnd hinv
    have hndg := hnd g (List.mem_cons_self _ _)
    have hz : ∀ p ∈ g, s.prevW p.1 = 0 := fun p hp => hinv p.1 (appears_head hp)
    obtain ⟨ws, s2, hfold, hchar⟩ := dayFold_ok_of_zero maxT g s hndg hz
    have hrd : runDay maxT s g =
        Except.ok ((g.map Prod.fst).zip (finishDay ws), s2) := by
      simp only [runDay, hfold]
    by_cases hhead :
        (g.all fun p => (!appears p.1 rest) || decide (p.2 = 0)) = true
    · -- every head row whose ticker reappears has a zero target
      have hinv2 : ∀ t, appears t rest = true → s2.prevW t = 0 := by
        intro t ht
        have hcu := hchar t
        rcases hl : lookupQ t g with _ | w
        · rw [hl] at hcu
          rw [hcu]
          exact hinv t (appears_tail ht)
        · rw [hl] at hcu
          have hmem : (t, w) ∈ g := lookupQ_some_mem hl
          have := List.all_eq_true.mp hhead (t, w) hmem
          rw [Bool.or_eq_true, Bool.not_eq_true', decide_eq_true_eq] at this
          rcases this with h0 | h0
          · rw [ht] at h0
            exact Bool.noConfusion h0
          · have h0w : w = 0 := h0
            rw [hcu, h0w]
            exact (clampStep_from_zero hm 0).mpr rfl
      obtain ⟨hok, herr⟩ := ih s2
        (fun g' hg' => hnd g' (List.mem_cons_of_mem _ hg')) hinv2
      constructor
      · intro htrue
        unfold noCarriedWeight at htrue
        rw [Bool.and_eq_true] at htrue
        obtain ⟨out, hout⟩ := hok htrue.2
        exact ⟨(g.map Prod.fst).zip (finishDay ws) :: out,
          by simp only [runGroups, hrd, hout]⟩
      · intro hfalse
        unfold noCarriedWeight at hfalse
        rw [hhead, Bool.true_and] at hfalse
        have := herr hfalse
        simp only [runGroups, hrd, this]
    · -- some head row carries nonzero weight into a later date
      have hheadf : (g.all fun p => !appears p.1 rest || decide (p.2 = 0)) = false :=
        Bool.eq_false_iff.mpr hhead
      rw [List.all_eq_false] at hheadf
      obtain ⟨p, hp, hbad0⟩ := hheadf
      have hbad : (!appears p.1 rest || decide (p.2 = 0)) = false :=
        Bool.eq_false_iff.mpr hbad0
      rw [Bool.or_eq_false_iff] at hbad
      obtain ⟨happ, hz0⟩ := hbad
      rw [Bool.not_eq_false'] at happ
      rw [decide_eq_false_iff_not] at hz0
      have hlp : lookupQ p.1 g = some p.2 := lookupQ_of_mem hndg hp
      have hs2 : s2.prevW p.1 = clampStep 0 p.2 maxT := by
        have hcu := hchar p.1
        rw [hlp] at hcu
        exact hcu
      have hnz : s2.prevW p.1 ≠ 0 := by
        rw [hs2]
        intro hc
        exact hz0 ((clampStep_from_zero hm p.2).mp hc)
      have herr2 := runGroups_error_of_appears maxT rest s2
        (fun g' hg' => hnd g' (List.mem_cons_of_mem _ hg')) ⟨p.1, happ, hnz⟩
      have hfalse : noCarriedWeight (g :: rest) = false := by
        unfold noCarriedWeight
        have hA : (g.all fun q => !appears q.1 rest || decide (q.2 = 0)) = false := by
          rw [List.all_eq_false]
          refine ⟨p, hp, ?_⟩
          intro hbadtrue
          rw [Bool.or_eq_true] at hbadtrue
          rcases hbadtrue with h | h
          · rw [Bool.not_eq_true'] at h
            rw [h] at happ
            exact Bool.noConfusion happ
          · exact hz0 (of_decide_eq_true h)
        rw [hA, Bool.false_and]
      constructor
      · intro htrue
        rw [htrue] at hfalse
        exact Bool.noConfusion hfalse
      · intro _
        simp only [runGroups, hrd, herr2]

/-! ### The final per-date gross cap keeps gross exposure at `MAX_GROSS` -/

def sumAbs (l : List ℚ) : ℚ := (l.map absQ).sum

theorem sumAbs_nonneg (l : List ℚ) : 0 ≤ sumAbs l := by
  unfold sumAbs
  induction l with
  | nil => simp
  | cons x xs ih =>
    simp only [List.map_cons, List.sum_cons]
    have hx : 0 ≤ absQ x := by
      rw [absQ_eq_abs]
      exact abs_nonneg x
    linarith

theorem sumAbs_scale (l : List ℚ) (c : ℚ) :
    sumAbs (l.map (fun w => w * c)) = sumAbs l * |c| := by
  unfold sumAbs
  induction l with
  | nil => simp
  | cons x xs ih =>
    simp only [List.map_cons, List.sum_cons]
    rw [ih, absQ_eq_abs, absQ_eq_abs, abs_mul]
    ring

theorem finishDay_sumAbs_le (ws : List ℚ) : sumAbs (finishDay ws) ≤ MAX_GROSS := by
  unfold finishDay
  by_cases h : MAX_GROSS < (ws.map absQ).sum ∧ 0 < (ws.map absQ).sum
  · rw [if_pos h]
    have hfn : (fun w => w / (ws.map absQ).sum * MAX_GROSS)
        = fun w => w * (MAX_GROSS / (ws.map absQ).sum) := by
      funext w
      rw [div_mul_eq_mul_div, mul_div_assoc]
    rw [hfn, sumAbs_scale]
    rw [abs_of_pos (div_pos (by norm_num [MAX_GROSS]) h.2)]
    have hs : sumAbs ws = (ws.map absQ).sum := rfl
    rw [hs, MAX_GROSS, mul_one_div, div_self (ne_of_gt h.2)]
  · rw [if_neg h]
    by_contra hc
    push_neg at hc
    have hpos : 0 < sumAbs ws :=
      lt_trans (by norm_num [MAX_GROSS]) hc
    exact h ⟨hc, hpos⟩

theorem grossOf_zip_le (ks : List String) (vs : List ℚ) :
    grossOf (ks.zip vs) ≤ sumAbs vs := by
  induction ks generalizing vs with
  | nil =>
    simpa [grossOf] using sumAbs_nonneg vs
  | cons k ks ih =>
    cases vs with
    | nil => simp [grossOf, sumAbs]
    | cons v vs =>
      have h1 : grossOf ((k, v) :: ks.zip vs) = absQ v + grossOf (ks.zip vs) := by
        unfold grossOf
        simp
      have h2 : sumAbs (v :: vs) = absQ v + sumAbs vs := by
        unfold sumAbs
        simp
      rw [List.zip_cons_cons, h1, h2]
      exact add_le_add_left (ih vs) _

/-- Every date group emitted by a successful run of the governor respects
the gross cap (the per-date rescale is the last write to the weights). -/
theorem runGroups_ok_gross (maxT : ℚ) (gs : List (List (String × ℚ))) :
    ∀ (s : TState) (out : List (List (String × ℚ))),
    runGroups maxT s gs = Except.ok out →
    ∀ d ∈ out, grossOf d ≤ MAX_GROSS := by
  induction gs with
  | nil =>
    intro s out h d hd
    injection h with h'
    rw [← h'] at hd
    simp at hd
  | cons g rest ih =>
    intro s out h d hd
    cases hrd : runDay maxT s g with
    | error e =>
      simp only [runGroups, hrd] at h
      exact Except.noConfusion h
    | ok pr =>
      obtain ⟨dg, s2⟩ := pr
      cases hrg : runGroups maxT s2 rest with
      | error e =>
        simp only [runGroups, hrd, hrg] at h
        exact Except.noConfusion h
      | ok restOut =>
        simp only [runGroups, hrd, hrg, Except.ok.injEq] at h
        rw [← h] at hd
        rcases List.mem_cons.mp hd with rfl | hmem
        · obtain ⟨ws, _, hdg⟩ := runDay_ok_inv hrd
          rw [hdg]
          exact le_trans (grossOf_zip_le _ _) (finishDay_sumAbs_le ws)
        · exact ih s2 restOut hrg d hmem

/-! ## Claims C1, C2 and C6 -/

/-- C1 (code bug): the spec requires the per-asset turnover bound with the
minimum-holding carry-forward, but at the failing input — one asset
"A" targeted at 0.05 on two consecutive dates — `_apply_turnover_cap`
raises the uncaught `NameError` on `MIN_HOLD_DAYS` when the second date
reads the nonzero carried weight, and produces no output at all. -/
theorem c1_turnover_bound_crash :
    applyTurnoverCap TURNOVER_CAP_PER_DAY [[("A", (1 : ℚ)/20)], [("A", (1 : ℚ)/20)]]
      = Except.error nameErrorMsg := by
  norm_num [applyTurnoverCap, runGroups, runDay, dayFold, processRow, clampStep,
    signQ, absQ, updF, finishDay, initState, TURNOVER_CAP_PER_DAY, MAX_GROSS]

/-- C2: `_apply_turnover_cap` raises an unhandled `NameError` (reading the
undefined `MIN_HOLD_DAYS`) as soon as any row reads a nonzero carried
executed weight, and completes normally exactly when every row whose ticker
recurs on a later date has target weight zero — the input-level equivalent
(for a positive cap and per-date unique tickers) of every previous executed
weight being zero on every date, since the weight stored for such a row is
`clampStep 0 target maxT`, which vanishes iff the target does. -/
theorem c2_name_error_characterization (maxT : ℚ)
    (groups : List (List (String × ℚ))) (hmax : 0 < maxT)
    (hnd : ∀ g ∈ groups, (g.map Prod.fst).Nodup) :
    (noCarriedWeight groups = true →
      ∃ out, applyTurnoverCap maxT groups = Except.ok out) ∧
    (noCarriedWeight groups = false →
      applyTurnoverCap maxT groups = Except.error nameErrorMsg) := by
  unfold applyTurnoverCap
  exact runGroups_cases maxT hmax groups initState hnd (fun t _ => rfl)

/-- Witness for `c2_name_error_characterization`: a run in which asset A
carries weight 0.05 into the second date dies with the `NameError`. -/
theorem c2_witness :
    (0 < (1/20 : ℚ)) ∧
    applyTurnoverCap (1/20) [[("A", (1 : ℚ)/20)], [("A", (0 : ℚ))]]
      = Except.error nameErrorMsg :=
  ⟨by norm_num,
   (c2_name_error_characterization (1/20) [[("A", (1 : ℚ)/20)], [("A", (0 : ℚ))]]
      (by norm_num)
      (by
        intro g hg
        simp only [List.mem_cons] at hg
        rcases hg with rfl | hg
        · simp
        · rcases hg with rfl | hg
          · simp
          · simp at hg)).2
    (by norm_num [noCarriedWeight, appears])⟩

/-- C6: for every date, gross exposure `Σ|weight|` is at most
`MAX_GROSS = 1.0` both in the Risk Model's per-date output and in every
date group of the Turnover Governor's output (exactly, hence within any
floating tolerance). -/
theorem c6_gross_cap_invariant :
    (∀ (hasVol hasRegime : Bool) (day : List DayRow),
      grossOf (riskModelForDay hasVol hasRegime day) ≤ MAX_GROSS) ∧
    (∀ (maxT : ℚ) (groups out : List (List (String × ℚ))),
      applyTurnoverCap maxT groups = Except.ok out →
      ∀ d ∈ out, grossOf d ≤ MAX_GROSS) :=
  ⟨riskModelForDay_gross_le,
   fun maxT groups out h => runGroups_ok_gross maxT groups initState out h⟩

/-- Witness for `c6_gross_cap_invariant` at a concrete one-date run. -/
theorem c6_witness :
    applyTurnoverCap (1/20) [[("A", (1 : ℚ)/100)]]
        = Except.ok [[("A", (1 : ℚ)/100)]] ∧
    grossOf [("A", (1 : ℚ)/100)] ≤ MAX_GROSS := by
  have hok : applyTurnoverCap (1/20) [[("A", (1 : ℚ)/100)]]
      = Except.ok [[("A", (1 : ℚ)/100)]] := by
    norm_num [applyTurnoverCap, runGroups, runDay, dayFold, processRow, clampStep,
      signQ, absQ, updF, finishDay, initState, MAX_GROSS]
  exact ⟨hok,
    c6_gross_cap_invariant.2 (1/20) [[("A", (1 : ℚ)/100)]] [[("A", (1 : ℚ)/100)]]
      hok [("A", (1 : ℚ)/100)] (List.mem_cons_self _ _)⟩

/-! ## `run_backtest_service`

The service consumes (date, ticker, price, executed-weight) rows and emits
one row per date.  Dates are trading-day ordinals (`ℤ`), with the
2005-01-01 start boundary at ordinal 0.  The per-ticker `pct_change` /
`shift(1)` of the pandas code are embedded as lookups of the ticker's
latest strictly-earlier row, and the per-date `groupby` aggregation as a map
over the sorted distinct dates.  `rolling(63).std()` leaves `ℚ` through the
square root, so the embedding carries the exact square
`rollingVolSq = 252 · std²` and keeps the scalar map
`v ↦ clip(TARGET_ANNUAL_VOL / √v, MAX_LEVERAGE)` abstract as a parameter
`f`; the `fillna(0.0)` giving leverage 0 on an incomplete window is
concrete.  All claims below hold for every `f`. -/

def BACKTEST_START_DATE : ℤ := 0

def SLIPPAGE_BPS : ℚ := 10

def COMMISSION_BPS : ℚ := 0

def TOTAL_COST_BPS : ℚ := SLIPPAGE_BPS + COMMISSION_BPS

def TARGET_ANNUAL_VOL : ℚ := 12/100

def VOL_LOOKBACK : ℕ := 63

def MAX_LEVERAGE : ℚ := 2

def DD_GOV_ENABLED : Bool := true

/-- The drawdown ladder, ordered smallest → deepest drawdown. -/
def DD_LEVELS : List (ℚ × ℚ) := [(-(1/10), 3/4), (-(1/5), 1/2), (-(3/10), 1/4)]

def DD_DEFAULT_MULT : ℚ := 1

/-- One input row of the backtest: date, ticker, price, executed weight. -/
structure BTRow where
  date : ℤ
  ticker : String
  price : ℚ
  weight : ℚ
deriving DecidableEq

/-- The ticker's rows strictly before date `d`. -/
def prevRowsOf (rows : List BTRow) (t : String) (d : ℤ) : List BTRow :=
  rows.filter (fun r => decide (r.ticker = t) && decide (r.date < d))

/-- The latest-dated row of a list (the row `shift(1)` reads). -/
def latestRow (l : List BTRow) : Option BTRow :=
  l.foldl (fun acc r =>
    match acc with
    | none => some r
    | some q => if q.date < r.date then some r else some q) none

def prevRow (rows : List BTRow) (t : String) (d : ℤ) : Option BTRow :=
  latestRow (prevRowsOf rows t d)

/-- `ret = groupby("ticker")["price"].pct_change().fillna(0.0)`. -/
def retOf (rows : List BTRow) (r : BTRow) : ℚ :=
  match prevRow rows r.ticker r.date with
  | none => 0
  | some q => r.price / q.price - 1

/-- `prev_weight = groupby("ticker")["weight"].shift(1).fillna(0.0)`. -/
def prevWeightOf (rows : List BTRow) (r : BTRow) : ℚ :=
  match prevRow rows r.ticker r.date with
  | none => 0
  | some q => q.weight

/-- `cost_rate = TOTAL_COST_BPS / 10000.0`. -/
def costRate : ℚ := TOTAL_COST_BPS / 10000

/-- The rows of date `d` (one `groupby("date")` group). -/
def rowsAt (rows : List BTRow) (d : ℤ) : List BTRow :=
  rows.filter (fun r => decide (r.date = d))

/-- `gross_ret = Σ weight·ret` over the date's rows. -/
def grossRetAt (rows : List BTRow) (d : ℤ) : ℚ :=
  ((rowsAt rows d).map (fun r => r.weight * retOf rows r)).sum

/-- `turnover = Σ |weight − prev_weight|` over the date's rows. -/
def turnoverAt (rows : List BTRow) (d : ℤ) : ℚ :=
  ((rowsAt rows d).map (fun r => absQ (r.weight - prevWeightOf rows r))).sum

/-- `cost = Σ turnover·cost_rate` over the date's rows. -/
def costAt (rows : List BTRow) (d : ℤ) : ℚ :=
  ((rowsAt rows d).map
    (fun r => absQ (r.weight - prevWeightOf rows r) * costRate)).sum

/-- `net_ret = Σ (weight·ret − cost)` over the date's rows. -/
def netRetAt (rows : List BTRow) (d : ℤ) : ℚ :=
  grossRetAt rows d - costAt rows d

/-- The `groupby("date")` keys: the distinct dates in ascending order. -/
def btDates (rows : List BTRow) : List ℤ :=
  ((rows.map BTRow.date).dedup).insertionSort (· ≤ ·)

/-- The trailing `VOL_LOOKBACK`-observation window ending at index `i`. -/
def windowAt (l : List ℚ) (i : ℕ) : List ℚ :=
  (l.take (i + 1)).drop (i + 1 - VOL_LOOKBACK)

/-- Sample variance with `ddof = 1` (the pandas `std` squared). -/
def sampleVar (w : List ℚ) : ℚ :=
  ((w.map (fun x => (x - w.sum / (w.length : ℚ))^2)).sum) / ((w.length : ℚ) - 1)

/-- `252 · (rolling std)²`: the square of the annualized `rolling_vol`
column, `none` (NaN) while fewer than `VOL_LOOKBACK` observations exist. -/
def rollingVolSq (l : List ℚ) : List (Option ℚ) :=
  (List.range l.length).map (fun i =>
    if VOL_LOOKBACK ≤ i + 1 then some (252 * sampleVar (windowAt l i)) else none)

/-- Leverage per date: `fillna(0.0)` on NaN vol, else the clipped ratio
`f vol²` (with `f` abstracting `v ↦ min(TARGET_ANNUAL_VOL / √v, MAX_LEVERAGE)`,
the `v = 0` case giving `inf` clipped to `MAX_LEVERAGE`). -/
def levOf (f : ℚ → ℚ) : Option ℚ → ℚ
  | none => 0
  | some v => f v

/-- `mult = DD_DEFAULT_MULT` overwritten, in ladder order, by each level
whose threshold the drawdown satisfies. -/
def ddMultOf (dd : ℚ) : ℚ :=
  if DD_GOV_ENABLED then
    DD_LEVELS.foldl (fun m p => if dd ≤ p.1 then p.2 else m) DD_DEFAULT_MULT
  else DD_DEFAULT_MULT

/-- Python `max(peak, equity)`. -/
def maxQ (a b : ℚ) : ℚ := if a < b then b else a

/-- One date of the drawdown governor: from (equity, peak) and the
vol-targeted return, the new state and the emitted
(dd_mult, drawdown, governed daily_ret). -/
def ddStep (st : ℚ × ℚ) (r : ℚ) : (ℚ × ℚ) × (ℚ × ℚ × ℚ) :=
  let drawdown := st.1 / st.2 - 1
  let mult := ddMultOf drawdown
  let govR := r * mult
  let eq2 := st.1 * (1 + govR)
  ((eq2, maxQ st.2 eq2), (mult, drawdown, govR))

def ddGovAux : (ℚ × ℚ) → List ℚ → List (ℚ × ℚ × ℚ)
  | _, [] => []
  | st, r :: rs => (ddStep st r).2 :: ddGovAux (ddStep st r).1 rs

/-- The sequential drawdown-governor pass, equity and peak starting at 1. -/
def ddGov (l : List ℚ) : List (ℚ × ℚ × ℚ) := ddGovAux (1, 1) l

def cumprodAux (acc : ℚ) : List ℚ → List ℚ
  | [] => []
  | x :: xs => (acc * x) :: cumprodAux (acc * x) xs

/-- `daily["cumret"] = (1.0 + daily["daily_ret"]).cumprod()` — note that the
code does NOT subtract the 1.0 baseline. -/
def cumretOf (dailyRet : List ℚ) : List ℚ :=
  cumprodAux 1 (dailyRet.map (fun r => 1 + r))

/-- The date-indexed output table of `run_backtest_service`, stored
columnwise like the DataFrame. -/
structure DailyCols where
  dates : List ℤ
  grossRet : List ℚ
  netRet : List ℚ
  turnover : List ℚ
  cost : List ℚ
  rawRet : List ℚ
  volSq : List (Option ℚ)
  leverage : List ℚ
  vtRet : List ℚ
  ddMult : List ℚ
  drawdown : List ℚ
  dailyRet : List ℚ
  cumret : List ℚ
deriving DecidableEq

/-- Steps 1-8 of `run_backtest_service` after the start-date filter. -/
def backtestDaily (f : ℚ → ℚ) (rows : List BTRow) : DailyCols :=
  let ds := btDates rows
  let raw := ds.map (netRetAt rows)
  let volsq := rollingVolSq raw
  let lev := volsq.map (levOf f)
  let vt := List.zipWith (fun r l => r * l) raw lev
  let dd := ddGov vt
  let daily := dd.map (fun o => o.2.2)
  { dates := ds
    grossRet := ds.map (grossRetAt rows)
    netRet := raw
    turnover := ds.map (turnoverAt rows)
    cost := ds.map (costAt rows)
    rawRet := raw
    volSq := volsq
    leverage := lev
    vtRet := vt
    ddMult := dd.map (fun o => o.1)
    drawdown := dd.map (fun o => o.2.1)
    dailyRet := daily
    cumret := cumretOf daily }

/-- `run_backtest_service`: start-date filter, empty check, daily table. -/
def runBacktestService (f : ℚ → ℚ) (rows : List BTRow) :
    Except String DailyCols :=
  let rows2 := rows.filter (fun r => decide (BACKTEST_START_DATE ≤ r.date))
  if rows2.isEmpty then
    Except.error "[BacktestService] No data after start date"
  else Except.ok (backtestDaily f rows2)

/-! ## Claims C5 and C3 -/

/-- Written from the spec's words: the applied multiplier belongs to the
deepest threshold of the ordered ladder whose condition `drawdown ≤
threshold` is satisfied, else the default 1.0. -/
def ddMultSpec (dd : ℚ) : ℚ :=
  if dd ≤ -(3/10) then 1/4
  else if dd ≤ -(1/5) then 1/2
  else if dd ≤ -(1/10) then 3/4
  else 1

theorem ddGovAux_mult_eq (l : List ℚ) : ∀ st : ℚ × ℚ,
    (ddGovAux st l).map (fun o => o.1)
      = (ddGovAux st l).map (fun o => ddMultOf o.2.1) := by
  induction l with
  | nil => intro st; rfl
  | cons r rs ih =>
    intro st
    simp only [ddGovAux, List.map_cons]
    rw [ih]
    rfl

/-- C5: on every date the governor applies `ddMultOf drawdown`, which equals
the deepest-satisfied-threshold lookup of the spec; at a drawdown of exactly
−25% the applied multiplier is 0.50 (the ≥20%-but-<30% tier), not 0.75 or
0.25. -/
theorem c5_dd_deepest_tier :
    (∀ dd : ℚ, ddMultOf dd = ddMultSpec dd) ∧
    (∀ vt : List ℚ, (ddGov vt).map (fun o => o.1)
        = (ddGov vt).map (fun o => ddMultOf o.2.1)) ∧
    ddMultOf (-(1/4)) = 1/2 ∧
    ddMultOf (-(1/4)) ≠ 3/4 ∧ ddMultOf (-(1/4)) ≠ 1/4 := by
  refine ⟨fun dd => rfl, fun vt => ddGovAux_mult_eq vt (1, 1), ?_, ?_, ?_⟩ <;>
    norm_num [ddMultOf, DD_LEVELS, DD_GOV_ENABLED, DD_DEFAULT_MULT]

theorem cumprodAux_take_getLastD (l : List ℚ) : ∀ (acc : ℚ) (k : ℕ),
    ((cumprodAux acc l).take k).getLastD acc = acc * (l.take k).prod := by
  induction l with
  | nil => intro acc k; simp [cumprodAux]
  | cons x xs ih =>
    intro acc k
    cases k with
    | zero => simp
    | succ k =>
      simp only [cumprodAux, List.take_succ_cons, List.getLastD_cons,
        List.prod_cons]
      rw [ih (acc * x) k]
      ring

/-- C3 (amended): for every input and every prefix of output dates, the
emitted `cumret` at the last date of the prefix equals the cumulative
product of `(1 + daily_ret)` over the prefix — with NO subtraction of the
1.0 baseline (the empty prefix giving the starting equity 1.0). -/
theorem c3_amended_equity_consistency (f : ℚ → ℚ) (rows : List BTRow) (k : ℕ) :
    (((backtestDaily f rows).cumret).take k).getLastD 1
      = ((((backtestDaily f rows).dailyRet).map (fun r => 1 + r)).take k).prod := by
  have h : (backtestDaily f rows).cumret
      = cumretOf ((backtestDaily f rows).dailyRet) := rfl
  rw [h]
  unfold cumretOf
  rw [cumprodAux_take_getLastD, one_mul]

/-- The C3 counterexample input: one asset, one date at the start boundary,
executed weight 1/2 at price 100. -/
def c3rows : List BTRow := [⟨0, "A", 100, 1/2⟩]

/-- C3, counterexample: on `c3rows` the single emitted `daily_ret` is 0, so
the claimed value `Π(1 + daily_ret) − 1.0` is 0, but the emitted `cumret`
is 1 — the code never subtracts the baseline.  (With fewer than 63 dates
the leverage map is only applied to NaN windows, so the abstract scalar
map's values are irrelevant; `fun v => 0` is passed.) -/
theorem c3_counterexample :
    (((backtestDaily (fun v => 0) c3rows).cumret).take 1).getLastD 1
      ≠ ((((backtestDaily (fun v => 0) c3rows).dailyRet).map
          (fun r => 1 + r)).take 1).prod - 1 := by
  have hdr : (backtestDaily (fun v => (0 : ℚ)) c3rows).dailyRet = [0] := by
    norm_num [backtestDaily, btDates, c3rows, List.insertionSort, List.orderedInsert,
      netRetAt, grossRetAt, costAt, turnoverAt, rowsAt, retOf, prevWeightOf, prevRow,
      prevRowsOf, latestRow, costRate, TOTAL_COST_BPS, SLIPPAGE_BPS, COMMISSION_BPS,
      absQ, rollingVolSq, windowAt, sampleVar, VOL_LOOKBACK, levOf, ddGov, ddGovAux,
      ddStep, ddMultOf, DD_LEVELS, DD_GOV_ENABLED, DD_DEFAULT_MULT, maxQ, cumretOf,
      cumprodAux, List.range_succ]
  have hcum : (backtestDaily (fun v => (0 : ℚ)) c3rows).cumret = [1] := by
    norm_num [backtestDaily, btDates, c3rows, List.insertionSort, List.orderedInsert,
      netRetAt, grossRetAt, costAt, turnoverAt, rowsAt, retOf, prevWeightOf, prevRow,
      prevRowsOf, latestRow, costRate, TOTAL_COST_BPS, SLIPPAGE_BPS, COMMISSION_BPS,
      absQ, rollingVolSq, windowAt, sampleVar, VOL_LOOKBACK, levOf, ddGov, ddGovAux,
      ddStep, ddMultOf, DD_LEVELS, DD_GOV_ENABLED, DD_DEFAULT_MULT, maxQ, cumretOf,
      cumprodAux, List.range_succ]
  rw [hdr, hcum]
  norm_num

/-! ## Claim C8: no lookahead

Truncating the input to dates ≤ t truncates every column of the daily
output to its first `k` entries, where `k` is the number of distinct dates
≤ t.  The per-row stage only ever consults strictly earlier rows of the
same ticker; the rolling window ends at the current index; the drawdown
governor folds left-to-right. -/

theorem btDates_sorted (rows : List BTRow) : (btDates rows).Sorted (· ≤ ·) :=
  List.sorted_insertionSort _ _

theorem btDates_nodup (rows : List BTRow) : (btDates rows).Nodup :=
  (List.perm_insertionSort _ _).nodup_iff.mpr (List.nodup_dedup _)

theorem mem_btDates {rows : List BTRow} {d : ℤ} :
    d ∈ btDates rows ↔ ∃ r ∈ rows, r.date = d := by
  unfold btDates
  rw [(List.perm_insertionSort _ _).mem_iff, List.mem_dedup, List.mem_map]

theorem btDates_filter_le (rows : List BTRow) (t : ℤ) :
    btDates (rows.filter (fun r => decide (r.date ≤ t)))
      = (btDates rows).filter (fun d => decide (d ≤ t)) := by
  apply List.eq_of_perm_of_sorted _ (btDates_sorted _)
    ((btDates_sorted rows).filter _)
  apply List.perm_of_nodup_nodup_toFinset_eq (btDates_nodup _)
    ((btDates_nodup rows).filter _)
  ext d
  simp only [List.mem_toFinset, List.mem_filter, mem_btDates,
    decide_eq_true_eq]
  constructor
  · rintro ⟨r, hr, rfl⟩
    exact ⟨⟨r, hr.1, rfl⟩, hr.2⟩
  · rintro ⟨⟨r, hr, rfl⟩, hdt⟩
    exact ⟨r, ⟨hr, hdt⟩, rfl⟩

theorem sorted_filter_eq_takeWhile (t : ℤ) (l : List ℤ)
    (hl : l.Sorted (· ≤ ·)) :
    l.filter (fun d => decide (d ≤ t)) = l.takeWhile (fun d => decide (d ≤ t)) := by
  induction l with
  | nil => rfl
  | cons a l ih =>
    rw [List.sorted_cons] at hl
    by_cases hat : a ≤ t
    · rw [List.filter_cons_of_pos (by simpa using hat),
        List.takeWhile_cons_of_pos (by simpa using hat), ih hl.2]
    · rw [List.filter_cons_of_neg (by simpa using hat),
        List.takeWhile_cons_of_neg (by simpa using hat)]
      apply List.filter_eq_nil.mpr
      intro b hb
      simp only [decide_eq_true_eq]
      intro hbt
      exact hat (le_trans (hl.1 b hb) hbt)

theorem rowsAt_filter_le {t d : ℤ} (hd : d ≤ t) (rows : List BTRow) :
    rowsAt (rows.filter (fun r => decide (r.date ≤ t))) d = rowsAt rows d := by
  unfold rowsAt
  rw [List.filter_filter]
  apply List.filter_congr
  intro r _
  by_cases h : r.date = d
  · simp [h, hd]
  · simp [h]

theorem prevRowsOf_filter_le {t d : ℤ} (hd : d ≤ t) (rows : List BTRow)
    (tick : String) :
    prevRowsOf (rows.filter (fun r => decide (r.date ≤ t))) tick d
      = prevRowsOf rows tick d := by
  unfold prevRowsOf
  rw [List.filter_filter]
  apply List.filter_congr
  intro r _
  by_cases hrd : r.date < d
  · have hrt : r.date ≤ t := le_trans (le_of_lt hrd) hd
    simp [hrd, hrt]
  · simp [hrd]

theorem prevRow_filter_le {t d : ℤ} (hd : d ≤ t) (rows : List BTRow)
    (tick : String) :
    prevRow (rows.filter (fun r => decide (r.date ≤ t))) tick d
      = prevRow rows tick d := by
  unfold prevRow
  rw [prevRowsOf_filter_le hd]

theorem retOf_filter_le {t : ℤ} (rows : List BTRow) {r : BTRow}
    (hr : r.date ≤ t) :
    retOf (rows.filter (fun q => decide (q.date ≤ t))) r = retOf rows r := by
  unfold retOf
  rw [prevRow_filter_le hr]

theorem prevWeightOf_filter_le {t : ℤ} (rows : List BTRow) {r : BTRow}
    (hr : r.date ≤ t) :
    prevWeightOf (rows.filter (fun q => decide (q.date ≤ t))) r
      = prevWeightOf rows r := by
  unfold prevWeightOf
  rw [prevRow_filter_le hr]

theorem mem_rowsAt {rows : List BTRow} {d : ℤ} {r : BTRow}
    (h : r ∈ rowsAt rows d) : r ∈ rows ∧ r.date = d := by
  unfold rowsAt at h
  rw [List.mem_filter, decide_eq_true_eq] at h
  exact h

theorem grossRetAt_filter_le {t d : ℤ} (hd : d ≤ t) (rows : List BTRow) :
    grossRetAt (rows.filter (fun r => decide (r.date ≤ t))) d
      = grossRetAt rows d := by
  unfold grossRetAt
  rw [rowsAt_filter_le hd]
  congr 1
  apply List.map_congr_left
  intro r hr
  rw [retOf_filter_le rows (by rw [(mem_rowsAt hr).2]; exact hd)]

theorem turnoverAt_filter_le {t d : ℤ} (hd : d ≤ t) (rows : List BTRow) :
    turnoverAt (rows.filter (fun r => decide (r.date ≤ t))) d
      = turnoverAt rows d := by
  unfold turnoverAt
  rw [rowsAt_filter_le hd]
  congr 1
  apply List.map_congr_left
  intro r hr
  rw [prevWeightOf_filter_le rows (by rw [(mem_rowsAt hr).2]; exact hd)]

theorem costAt_filter_le {t d : ℤ} (hd : d ≤ t) (rows : List BTRow) :
    costAt (rows.filter (fun r => decide (r.date ≤ t))) d = costAt rows d := by
  unfold costAt
  rw [rowsAt_filter_le hd]
  congr 1
  apply List.map_congr_left
  intro r hr
  rw [prevWeightOf_filter_le rows (by rw [(mem_rowsAt hr).2]; exact hd)]

theorem netRetAt_filter_le {t d : ℤ} (hd : d ≤ t) (rows : List BTRow) :
    netRetAt (rows.filter (fun r => decide (r.date ≤ t))) d = netRetAt rows d := by
  unfold netRetAt
  rw [grossRetAt_filter_le hd, costAt_filter_le hd]

theorem rollingVolSq_take (l : List ℚ) (k : ℕ) (hk : k ≤ l.length) :
    rollingVolSq (l.take k) = (rollingVolSq l).take k := by
  unfold rollingVolSq
  rw [List.length_take, min_eq_left hk, ← List.map_take, List.take_range,
    min_eq_left hk]
  apply List.map_congr_left
  intro i hi
  rw [List.mem_range] at hi
  have hw : windowAt (l.take k) i = windowAt l i := by
    unfold windowAt
    rw [List.take_take, min_eq_left hi]
  rw [hw]

theorem ddGovAux_take (l : List ℚ) : ∀ (st : ℚ × ℚ) (k : ℕ),
    ddGovAux st (l.take k) = (ddGovAux st l).take k := by
  induction l with
  | nil => intro st k; simp [ddGovAux]
  | cons r rs ih =>
    intro st k
    cases k with
    | zero => simp [ddGovAux]
    | succ k =>
      simp only [List.take_succ_cons, ddGovAux]
      rw [ih]

theorem cumprodAux_take (l : List ℚ) : ∀ (acc : ℚ) (k : ℕ),
    cumprodAux acc (l.take k) = (cumprodAux acc l).take k := by
  induction l with
  | nil => intro acc k; simp [cumprodAux]
  | cons x xs ih =>
    intro acc k
    cases k with
    | zero => simp [cumprodAux]
    | succ k =>
      simp only [List.take_succ_cons, cumprodAux]
      rw [ih]

/-- Truncating each column of the daily table. -/
def DailyCols.takek (k : ℕ) (c : DailyCols) : DailyCols :=
  ⟨c.dates.take k, c.grossRet.take k, c.netRet.take k, c.turnover.take k,
   c.cost.take k, c.rawRet.take k, c.volSq.take k, c.leverage.take k,
   c.vtRet.take k, c.ddMult.take k, c.drawdown.take k, c.dailyRet.take k,
   c.cumret.take k⟩

/-- C8, backtest half (helper): running on the input truncated to dates ≤ t
gives exactly the first k rows of every column of the full run. -/
theorem backtestDaily_filter_take (f : ℚ → ℚ) (rows : List BTRow) (t : ℤ) :
    backtestDaily f (rows.filter (fun r => decide (r.date ≤ t)))
      = DailyCols.takek
          (((btDates rows).takeWhile (fun d => decide (d ≤ t))).length)
          (backtestDaily f rows) := by
  set k := ((btDates rows).takeWhile (fun d => decide (d ≤ t))).length with hkdef
  have htw : (btDates rows).takeWhile (fun d => decide (d ≤ t))
      = (btDates rows).take k :=
    List.prefix_iff_eq_take.mp (List.takeWhile_prefix _)
  have hds : btDates (rows.filter (fun r => decide (r.date ≤ t)))
      = (btDates rows).take k := by
    rw [btDates_filter_le,
      sorted_filter_eq_takeWhile t _ (btDates_sorted rows), htw]
  have hk : k ≤ (btDates rows).length := (List.takeWhile_prefix _).length_le
  have hmem : ∀ d ∈ (btDates rows).take k, d ≤ t := by
    intro d hd
    rw [← htw] at hd
    simpa using List.mem_takeWhile_imp hd
  have hcol : ∀ g g2 : List BTRow → ℤ → ℚ,
      (∀ (d : ℤ), d ≤ t →
        g (rows.filter (fun r => decide (r.date ≤ t))) d = g2 rows d) →
      ((btDates (rows.filter (fun r => decide (r.date ≤ t)))).map
          (g (rows.filter (fun r => decide (r.date ≤ t)))))
        = ((btDates rows).map (g2 rows)).take k := by
    intro g g2 hg
    rw [hds, ← List.map_take]
    apply List.map_congr_left
    intro d hd
    exact hg d (hmem d hd)
  have hraw := hcol netRetAt netRetAt (fun d hd => netRetAt_filter_le hd rows)
  have hgross := hcol grossRetAt grossRetAt (fun d hd => grossRetAt_filter_le hd rows)
  have hturn := hcol turnoverAt turnoverAt (fun d hd => turnoverAt_filter_le hd rows)
  have hcost := hcol costAt costAt (fun d hd => costAt_filter_le hd rows)
  have hklen : k ≤ ((btDates rows).map (netRetAt rows)).length := by
    rw [List.length_map]
    exact hk
  have hvol : rollingVolSq ((btDates (rows.filter (fun r => decide (r.date ≤ t)))).map
        (netRetAt (rows.filter (fun r => decide (r.date ≤ t)))))
      = (rollingVolSq ((btDates rows).map (netRetAt rows))).take k := by
    rw [hraw, rollingVolSq_take _ k hklen]
  simp only [backtestDaily, DailyCols.takek, DailyCols.mk.injEq]
  refine ⟨hds, hgross, hraw, hturn, hcost, hraw, hvol, ?_, ?_, ?_, ?_, ?_, ?_⟩
  · rw [hvol, List.map_take]
  · rw [hraw, rollingVolSq_take _ k hklen, List.map_take,
      ← List.zipWith_distrib_take]
  · rw [hraw, rollingVolSq_take _ k hklen, List.map_take,
      ← List.zipWith_distrib_take]
    unfold ddGov
    rw [ddGovAux_take, List.map_take]
  · rw [hraw, rollingVolSq_take _ k hklen, List.map_take,
      ← List.zipWith_distrib_take]
    unfold ddGov
    rw [ddGovAux_take, List.map_take]
  · rw [hraw, rollingVolSq_take _ k hklen, List.map_take,
      ← List.zipWith_distrib_take]
    unfold ddGov
    rw [ddGovAux_take, List.map_take]
  · rw [hraw, rollingVolSq_take _ k hklen, List.map_take,
      ← List.zipWith_distrib_take]
    unfold ddGov cumretOf
    rw [ddGovAux_take, List.map_take, List.map_take, cumprodAux_take]

/-! ## `run_signal_engine` — the Signal Conditioner

The conditioner runs downstream of the external alpha stage
(`compute_cross_sectional_momentum`), so its input rows already carry a
`raw_signal` (`sig`).  The pandas `ewm(halflife=SIGNAL_EMA_HALFLIFE,
adjust=False)` recursion is `y₀ = x₀`, `yᵢ = lam·yᵢ₋₁ + (1−lam)·xᵢ` with
decay `lam = (1/2)^(1/3)`, an irrational number: the embedding is therefore
generic over a linear ordered field `F` and the decay `lam`, with concrete
instances at `F := ℚ` (any decay) and `F := ℝ` with the real decay.
Literals in the definitions: `MIN_PRICE = 5`, `MIN_VOL_20 = 1/100`,
`SIGNAL_DEADZONE = 1/20`. -/

def REGIME_TICKER : String := "SPY"

/-- One row of the factor table entering `run_signal_engine`: `vol` is the
NaN-able `vol_20` column, `ema` the NaN-able `ema_200` column, `sig` the
`raw_signal` produced by the alpha stage. -/
structure SigRow (F : Type) where
  date : ℤ
  ticker : String
  price : F
  vol : Option F
  ema : Option F
  sig : F
deriving DecidableEq

/-- The `sort_values(["ticker", "date"])` key order. -/
def sigKeyLe {F : Type} (a b : SigRow F) : Prop :=
  a.ticker < b.ticker ∨ (a.ticker = b.ticker ∧ a.date ≤ b.date)

instance {F : Type} : DecidableRel (@sigKeyLe F) := fun a b => by
  unfold sigKeyLe
  infer_instance

def sortSig {F : Type} (rows : List (SigRow F)) : List (SigRow F) :=
  List.insertionSort sigKeyLe rows

/-- The universe mask of one row: `price >= MIN_PRICE` and (when the
`vol_20` column exists) `vol_20 >= MIN_VOL_20`; a NaN `vol_20` compares
false, exactly as in pandas. -/
def eligible {F : Type} [LinearOrderedField F] (hasVol : Bool) (r : SigRow F) :
    Bool :=
  decide ((5 : F) ≤ r.price) &&
    (if hasVol then
      match r.vol with
      | some v => decide ((1/100 : F) ≤ v)
      | none => false
    else true)

/-- `df.loc[~universe_mask, "raw_signal"] = 0.0`. -/
def conditionUniverse {F : Type} [LinearOrderedField F] (hasVol : Bool)
    (rows : List (SigRow F)) : List (SigRow F) :=
  rows.map (fun r => if eligible hasVol r then r else { r with sig := 0 })

/-- The SPY rows surviving `.dropna()` on the ema column. -/
def spyDropna {F : Type} (rows : List (SigRow F)) : List (SigRow F) :=
  rows.filter (fun r => decide (r.ticker = REGIME_TICKER) && r.ema.isSome)

/-- The per-date regime scalar: 1.0 by default; when the ema column exists,
SPY is present and its dropna table nonempty, the date's SPY row (if any)
gives `1` when `price > ema` else `0`, missing dates falling back to 1.0
(`fillna` with the default column). -/
def regimeAt {F : Type} [LinearOrderedField F] (hasEma : Bool)
    (rows : List (SigRow F)) (d : ℤ) : F :=
  if hasEma && rows.any (fun r => decide (r.ticker = REGIME_TICKER))
      && !(spyDropna rows).isEmpty then
    match (spyDropna rows).find? (fun r => decide (r.date = d)) with
    | some r => if r.ema.getD 0 < r.price then 1 else 0
    | none => 1
  else 1

/-- `adjust=False` exponential smoothing step. -/
def emaStep {F : Type} [LinearOrderedField F] (lam : F) (prev : Option F)
    (x : F) : F :=
  match prev with
  | none => x
  | some y => lam * y + (1 - lam) * x

/-- The per-ticker `ewm` pass in row order, carrying each ticker's running
smoothed value (pandas groups by ticker preserving row order). -/
def emaSmoothGo {F : Type} [LinearOrderedField F] (lam : F) :
    (String → Option F) → List (SigRow F) → List (SigRow F)
  | _, [] => []
  | acc, r :: rs =>
    ({ r with sig := emaStep lam (acc r.ticker) r.sig }) ::
      emaSmoothGo lam
        (fun u => if u = r.ticker then some (emaStep lam (acc r.ticker) r.sig)
                  else acc u) rs

def emaSmooth {F : Type} [LinearOrderedField F] (lam : F)
    (rows : List (SigRow F)) : List (SigRow F) :=
  emaSmoothGo lam (fun _ => none) rows

/-- The deadzone: snap `|raw_signal| < SIGNAL_DEADZONE` to exactly zero. -/
def deadzone {F : Type} [LinearOrderedField F] (r : SigRow F) : SigRow F :=
  if (if r.sig < 0 then -r.sig else r.sig) < (1/20 : F) then { r with sig := 0 }
  else r

/-- `run_signal_engine` after the alpha stage: sort, universe conditioning,
per-ticker smoothing, deadzone, and the final regime gating (the regime
column is computed at step 3, from the conditioned table, and applied at
step 5). -/
def signalConditioner {F : Type} [LinearOrderedField F] (lam : F)
    (hasVol hasEma : Bool) (rows : List (SigRow F)) : List (SigRow F) :=
  let c := conditionUniverse hasVol (sortSig rows)
  ((emaSmooth lam c).map deadzone).map
    (fun r => { r with sig := r.sig * regimeAt hasEma c r.date })

/-! ### Regime lemmas (claims C8 and C4) -/

/-- The presence/nonempty guards of the regime branch are redundant: when
either fails, the date lookup is over an empty table and both sides give
the 1.0 default. -/
theorem regimeAt_eq_find {F : Type} [LinearOrderedField F] (hasEma : Bool)
    (rows : List (SigRow F)) (d : ℤ) :
    regimeAt hasEma rows d =
      if hasEma then
        match (spyDropna rows).find? (fun r => decide (r.date = d)) with
        | some r => if r.ema.getD 0 < r.price then 1 else 0
        | none => 1
      else 1 := by
  unfold regimeAt
  cases hasEma with
  | false => simp
  | true =>
    simp only [Bool.true_and, if_true]
    by_cases hany : rows.any (fun r => decide (r.ticker = REGIME_TICKER)) = true
    · by_cases hne : (spyDropna rows).isEmpty = true
      · have hnil : spyDropna rows = [] := List.isEmpty_iff.mp hne
        simp [hany, hne, hnil]
      · simp [hany, hne]
    · have hsd : spyDropna rows = [] := by
        unfold spyDropna
        apply List.filter_eq_nil.mpr
        intro r hr
        intro hc
        rw [Bool.and_eq_true] at hc
        exact hany (List.any_eq_true.mpr ⟨r, hr, hc.1⟩)
      simp [hany, hsd]

theorem spyDropna_filter_comm {F : Type} (rows : List (SigRow F))
    (q : SigRow F → Bool) :
    spyDropna (rows.filter q) = (spyDropna rows).filter q := by
  unfold spyDropna
  rw [List.filter_filter, List.filter_filter]
  apply List.filter_congr
  intro r _
  rw [Bool.and_comm]

theorem find?_filter_of_imp {α : Type} (l : List α) (p q : α → Bool)
    (h : ∀ x, p x = true → q x = true) :
    (l.filter q).find? p = l.find? p := by
  induction l with
  | nil => rfl
  | cons a l ih =>
    by_cases hq : q a = true
    · rw [List.filter_cons_of_pos hq]
      by_cases hp : p a = true
      · rw [List.find?_cons_of_pos _ hp, List.find?_cons_of_pos _ hp]
      · rw [List.find?_cons_of_neg _ (by simpa using hp),
          List.find?_cons_of_neg _ (by simpa using hp), ih]
    · rw [List.filter_cons_of_neg hq]
      have hp : ¬ p a = true := fun hpa => hq (h a hpa)
      rw [ih, List.find?_cons_of_neg _ (by simpa using hp)]

/-- C8, regime half (helper): the regime scalar of any date `d ≤ t` is
unchanged when the input is truncated to dates ≤ t — both the per-date SPY
lookup and every missing-data default are truncation-stable. -/
theorem regimeAt_filter_le {F : Type} [LinearOrderedField F] (hasEma : Bool)
    (rows : List (SigRow F)) {t d : ℤ} (hd : d ≤ t) :
    regimeAt hasEma (rows.filter (fun r => decide (r.date ≤ t))) d
      = regimeAt hasEma rows d := by
  rw [regimeAt_eq_find, regimeAt_eq_find, spyDropna_filter_comm]
  cases hasEma with
  | false => rfl
  | true =>
    simp only [if_true]
    rw [find?_filter_of_imp]
    intro x hx
    rw [decide_eq_true_eq] at hx ⊢
    rw [hx]
    exact hd

/-! ## Claim C4 -/

/-- C4 (amended): every row failing universe eligibility has its signal set
to exactly zero at the conditioning stage — before the EMA smoothing.  (The
smoothing then mixes the zero with the ticker's earlier conditioned
signals, so the finally emitted `raw_signal` of an ineligible row need not
be zero; see the counterexample.) -/
theorem c4_amended_conditioned_zero {F : Type} [LinearOrderedField F]
    (hasVol : Bool) (rows : List (SigRow F)) :
    ∀ r ∈ conditionUniverse hasVol rows,
      eligible hasVol r = false → r.sig = 0 := by
  intro r hr hel
  obtain ⟨q, hq, hqr⟩ := List.mem_map.mp hr
  subst hqr
  by_cases he : eligible hasVol q = true
  · rw [if_pos he] at hel ⊢
    rw [he] at hel
    exact Bool.noConfusion hel
  · rw [if_neg he]

/-- Witness for `c4_amended_conditioned_zero`: a ℚ-valued row priced below
the floor is conditioned to signal zero. -/
theorem c4_amended_witness :
    ((⟨1, "A", 4, some 1, none, 0⟩ : SigRow ℚ)
        ∈ conditionUniverse true [(⟨1, "A", 4, some 1, none, 7⟩ : SigRow ℚ)]) ∧
    eligible true (⟨1, "A", (4 : ℚ), some 1, none, 0⟩ : SigRow ℚ) = false ∧
    (⟨1, "A", (4 : ℚ), some 1, none, 0⟩ : SigRow ℚ).sig = 0 := by
  have hmem : (⟨1, "A", 4, some 1, none, 0⟩ : SigRow ℚ)
      ∈ conditionUniverse true [(⟨1, "A", 4, some 1, none, 7⟩ : SigRow ℚ)] := by
    norm_num [conditionUniverse, eligible]
  have hel : eligible true (⟨1, "A", (4 : ℚ), some 1, none, 0⟩ : SigRow ℚ)
      = false := by
    norm_num [eligible]
  exact ⟨hmem, hel,
    c4_amended_conditioned_zero true [(⟨1, "A", 4, some 1, none, 7⟩ : SigRow ℚ)]
      _ hmem hel⟩

/-- C4, counterexample (over `ℝ` with the code's actual decay
`lam = (1/2)^(1/3)`): asset A has a full signal of 1 on date 1 (eligible,
price 10) and fails eligibility on date 2 (price 4 < MIN_PRICE = 5).  The
conditioning zeroes date 2's signal, but the EMA then emits
`lam·1 + (1−lam)·0 = lam ≈ 0.794` there; `lam ≥ 1/2` survives the 0.05
deadzone and the regime is 1, so the emitted `raw_signal` of the
ineligible (date, asset) row is `lam ≠ 0`, refuting the claim. -/
theorem c4_counterexample :
    ((signalConditioner ((1/2 : ℝ) ^ ((1:ℝ)/3)) true false
        [⟨1, "A", 10, some 1, none, 1⟩, ⟨2, "A", 4, some 1, none, 1⟩]).map
      (fun r => (r.price, r.sig)))
      = [((10:ℝ), 1), ((4:ℝ), (1/2 : ℝ) ^ ((1:ℝ)/3))] ∧
    ¬ (5 : ℝ) ≤ 4 ∧
    ((1/2 : ℝ) ^ ((1:ℝ)/3)) ≠ 0 := by
  refine ⟨?_, by norm_num, ne_of_gt (Real.rpow_pos_of_pos (by norm_num) _)⟩
  set lam : ℝ := (1/2 : ℝ) ^ ((1:ℝ)/3) with hlam
  have hlam0 : (0:ℝ) < lam := Real.rpow_pos_of_pos (by norm_num) _
  have hlam_half : (1/2 : ℝ) ≤ lam := by
    have h := Real.rpow_le_rpow_of_exponent_ge
      (show (0:ℝ) < 1/2 by norm_num) (by norm_num)
      (show (1:ℝ)/3 ≤ 1 by norm_num)
    rwa [Real.rpow_one] at h
  have hsort : sortSig [(⟨1, "A", 10, some 1, none, 1⟩ : SigRow ℝ),
        ⟨2, "A", 4, some 1, none, 1⟩]
      = [⟨1, "A", 10, some 1, none, 1⟩, ⟨2, "A", 4, some 1, none, 1⟩] := by
    simp [sortSig, List.insertionSort, List.orderedInsert, sigKeyLe]
  have hcond : conditionUniverse true
        [(⟨1, "A", 10, some 1, none, 1⟩ : SigRow ℝ), ⟨2, "A", 4, some 1, none, 1⟩]
      = [⟨1, "A", 10, some 1, none, 1⟩, ⟨2, "A", 4, some 1, none, 0⟩] := by
    norm_num [conditionUniverse, eligible]
  have hsmooth : emaSmooth lam
        [(⟨1, "A", 10, some 1, none, 1⟩ : SigRow ℝ), ⟨2, "A", 4, some 1, none, 0⟩]
      = [⟨1, "A", 10, some 1, none, 1⟩, ⟨2, "A", 4, some 1, none, lam⟩] := by
    simp [emaSmooth, emaSmoothGo, emaStep]
  have hdz1 : deadzone (⟨1, "A", 10, some 1, none, (1:ℝ)⟩ : SigRow ℝ)
      = ⟨1, "A", 10, some 1, none, 1⟩ := by
    norm_num [deadzone]
  have hdz2 : deadzone (⟨2, "A", 4, some 1, none, lam⟩ : SigRow ℝ)
      = ⟨2, "A", 4, some 1, none, lam⟩ := by
    unfold deadzone
    rw [if_neg (not_lt.mpr hlam0.le)]
    rw [if_neg (not_lt.mpr (le_trans (by norm_num) hlam_half))]
  have hreg : ∀ d : ℤ, regimeAt false
        [(⟨1, "A", 10, some 1, none, 1⟩ : SigRow ℝ),
         ⟨2, "A", 4, some 1, none, 0⟩] d = 1 := by
    intro d
    simp [regimeAt]
  unfold signalConditioner
  rw [hsort, hcond]
  simp only [hsmooth, List.map_cons, List.map_nil, hdz1, hdz2, hreg, mul_one]

/-- C8: nothing computed for dates ≤ t looks ahead.  Backtest half: running
on the input truncated to dates ≤ t reproduces exactly the first k rows of
every column of the full run (k = number of distinct dates ≤ t) — in
particular rolling volatility (via its exact square), leverage, drawdown
and the drawdown multiplier.  Regime half: the Signal Conditioner's
per-date regime scalar at any date d ≤ t is unchanged by the truncation. -/
theorem c8_no_lookahead :
    (∀ (f : ℚ → ℚ) (rows : List BTRow) (t : ℤ),
      backtestDaily f (rows.filter (fun r => decide (r.date ≤ t)))
        = DailyCols.takek
            (((btDates rows).takeWhile (fun d => decide (d ≤ t))).length)
            (backtestDaily f rows)) ∧
    (∀ (F : Type) [instF : LinearOrderedField F] (hasEma : Bool)
      (srows : List (SigRow F)) (t d : ℤ), d ≤ t →
      regimeAt hasEma (srows.filter (fun r => decide (r.date ≤ t))) d
        = regimeAt hasEma srows d) :=
  ⟨backtestDaily_filter_take,
   fun F _ hasEma srows t d hd => regimeAt_filter_le hasEma srows hd⟩

/-- Witness for `c8_no_lookahead` at a concrete input and date. -/
theorem c8_witness :
    ((0 : ℤ) ≤ 0) ∧
    (backtestDaily (fun v => 0) (c3rows.filter (fun r => decide (r.date ≤ (0 : ℤ))))
      = DailyCols.takek
          (((btDates c3rows).takeWhile (fun d => decide (d ≤ (0 : ℤ)))).length)
          (backtestDaily (fun v => 0) c3rows)) ∧
    (regimeAt false
        (([(⟨0, "SPY", 3, none, some 2, 1⟩ : SigRow ℚ)]).filter
          (fun r => decide (r.date ≤ (0 : ℤ)))) 0
      = regimeAt false [(⟨0, "SPY", 3, none, some 2, 1⟩ : SigRow ℚ)] 0) :=
  ⟨by decide,
   c8_no_lookahead.1 (fun v => 0) c3rows 0,
   c8_no_lookahead.2 ℚ false [(⟨0, "SPY", 3, none, some 2, 1⟩ : SigRow ℚ)] 0 0
     (by decide)⟩

/-!
## Walk-forward evaluator (walkforward_service.py, performance_service.py, main.py)

Dates are ℤ ordinals; `DateOffset(years=n)` is modelled as adding
`n * yearLen` for a parametric year length.  The input table is modelled as
its column-name list plus its list of row dates: the loop and the schema
check of `compute_performance` read nothing else, and the emitted row is
projected to its window fields (train_start, train_end, test_start,
test_end, n_days_test) — the performance statistics merged into it are
float quantities the claims never mention.  What IS modelled of
`compute_performance` is every way it can raise on a slice of the sorted
input: the missing daily_ret/cumret ValueError (performance_service.py
lines 19-22), the KeyError from reading a missing date column, the
IndexError of iloc on an empty frame, and the ZeroDivisionError of
1/total_years when the first and last slice dates coincide (with
whole-day ordinals, (last - first).days is exactly their difference);
past those reads the statistics are nan-tolerant pandas arithmetic that
raises nothing.  An uncaught exception aborts run_walkforward with no
output at all, so it propagates as `Except.error` through the whole run,
discarding previously appended rows exactly as the source does.  `raise
ValueError` becomes `Except.error`.  The while-loop gets a fuel
parameter, set larger than it can ever consume on the inputs the claims
concern: each non-breaking iteration advances the cursor by the positive
test offset.
-/

structure WfWin where
  trainStart : ℤ
  trainEnd : ℤ
  testStart : ℤ
  testEnd : ℤ
  nDaysTest : ℕ

def wfSlice (dates : List ℤ) (lo hi : ℤ) : List ℤ :=
  dates.filter (fun d => decide (lo ≤ d) && decide (d < hi))

/-- The df.sort_values("date") step before the loop. -/
def sortDates (dates : List ℤ) : List ℤ :=
  dates.insertionSort (fun a b => a ≤ b)

/-- Schema check and raise conditions of compute_performance on a slice:
first the required-columns ValueError, then the reads of line 27
(df of date, iloc 0 and iloc -1, then 1/total_years).  The statistics
computed afterwards raise nothing and are not carried in the row model.
The source interpolates the missing-column set into its message; the
formatting is not modelled. -/
def computePerformance (cols : List String) (ds : List ℤ) :
    Except String Unit :=
  if "daily_ret" ∈ cols ∧ "cumret" ∈ cols then
    if "date" ∈ cols then
      if ds.isEmpty then
        Except.error "[Performance] IndexError: empty frame"
      else if ds.getLastD 0 = ds.headD 0 then
        Except.error "[Performance] ZeroDivisionError: float division by zero"
      else Except.ok ()
    else Except.error "[Performance] KeyError: date"
  else Except.error "[Performance] Missing required columns"

def wfLoop (cols : List String) (dates : List ℤ) (last trOff teOff : ℤ)
    (minObs : ℕ) : ℕ → ℤ → Except String (List WfWin)
  | 0, _ => Except.ok []
  | fuel + 1, t0 =>
    if last ≤ t0 + trOff then Except.ok []
    else if (wfSlice dates (t0 + trOff) (t0 + trOff + teOff)).length < minObs then
      if last ≤ t0 + teOff then Except.ok []
      else wfLoop cols dates last trOff teOff minObs fuel (t0 + teOff)
    else
      match computePerformance cols
          (wfSlice dates (t0 + trOff) (t0 + trOff + teOff)) with
      | Except.error e => Except.error e
      | Except.ok _ =>
        if last ≤ t0 + teOff then
          Except.ok [⟨t0, t0 + trOff, t0 + trOff, t0 + trOff + teOff,
            (wfSlice dates (t0 + trOff) (t0 + trOff + teOff)).length⟩]
        else
          Except.map
            (fun ws => ⟨t0, t0 + trOff, t0 + trOff, t0 + trOff + teOff,
              (wfSlice dates (t0 + trOff) (t0 + trOff + teOff)).length⟩ :: ws)
            (wfLoop cols dates last trOff teOff minObs fuel (t0 + teOff))

/-- Column names of the frame returned by run_backtest_service, in the order
backtest_service.py assigns them (groupby-agg columns, then steps 5 to 8). -/
def backtestOutputCols : List String :=
  ["date", "gross_ret", "net_ret", "turnover", "cost", "raw_daily_ret",
   "rolling_vol", "leverage", "vt_ret", "dd_mult", "drawdown", "daily_ret",
   "cumret"]

def runWalkforward (cols : List String) (dates : List ℤ)
    (startDate yearLen trainYears testYears : ℤ) :
    Except String (List WfWin) :=
  if "date" ∈ cols then
    if "strategy_ret" ∈ cols then
      wfLoop cols (sortDates dates) (((sortDates dates).max?).getD 0)
        (trainYears * yearLen) (testYears * yearLen) 50
        (dates.length + 2) startDate
    else Except.error "[WalkForward] df_results missing strategy_ret column"
  else Except.error "[WalkForward] df_results missing date column"

def intRange (a : ℤ) : ℕ → List ℤ
  | 0 => []
  | n + 1 => a :: intRange (a + 1) n

theorem computePerformance_ok (cols : List String) (ds : List ℤ)
    (h1 : "daily_ret" ∈ cols) (h2 : "cumret" ∈ cols) (hd : "date" ∈ cols)
    (h3 : ds ≠ []) (h4 : ¬ ds.getLastD 0 = ds.headD 0) :
    computePerformance cols ds = Except.ok () := by
  unfold computePerformance
  rw [if_pos ⟨h1, h2⟩, if_pos hd,
    if_neg (fun hh => h3 (List.isEmpty_iff.mp hh)), if_neg h4]

theorem wfLoop_stop (cols : List String) (dates : List ℤ)
    (last trOff teOff : ℤ) (minObs fuel : ℕ)
    (t0 : ℤ) (h : last ≤ t0 + trOff) :
    wfLoop cols dates last trOff teOff minObs (fuel + 1) t0 = Except.ok [] := by
  simp only [wfLoop]
  rw [if_pos h]

theorem wfLoop_skip (cols : List String) (dates : List ℤ)
    (last trOff teOff : ℤ) (minObs fuel : ℕ)
    (t0 : ℤ) (h1 : ¬ last ≤ t0 + trOff)
    (h2 : (wfSlice dates (t0 + trOff) (t0 + trOff + teOff)).length < minObs) :
    wfLoop cols dates last trOff teOff minObs (fuel + 1) t0
      = if last ≤ t0 + teOff then Except.ok []
        else wfLoop cols dates last trOff teOff minObs fuel (t0 + teOff) := by
  simp only [wfLoop]
  rw [if_neg h1, if_pos h2]

theorem wfLoop_emit (cols : List String) (dates : List ℤ)
    (last trOff teOff : ℤ) (minObs fuel : ℕ)
    (t0 : ℤ) (h1 : ¬ last ≤ t0 + trOff)
    (h2 : ¬ (wfSlice dates (t0 + trOff) (t0 + trOff + teOff)).length < minObs)
    (hperf : computePerformance cols
        (wfSlice dates (t0 + trOff) (t0 + trOff + teOff)) = Except.ok ()) :
    wfLoop cols dates last trOff teOff minObs (fuel + 1) t0
      = if last ≤ t0 + teOff then
          Except.ok [⟨t0, t0 + trOff, t0 + trOff, t0 + trOff + teOff,
            (wfSlice dates (t0 + trOff) (t0 + trOff + teOff)).length⟩]
        else
          Except.map
            (fun ws => ⟨t0, t0 + trOff, t0 + trOff, t0 + trOff + teOff,
              (wfSlice dates (t0 + trOff) (t0 + trOff + teOff)).length⟩ :: ws)
            (wfLoop cols dates last trOff teOff minObs fuel (t0 + teOff)) := by
  simp only [wfLoop]
  rw [if_neg h1, if_neg h2, hperf]

theorem wfLoop_perf_error (cols : List String) (dates : List ℤ)
    (last trOff teOff : ℤ) (minObs fuel : ℕ) (t0 : ℤ) (e : String)
    (h1 : ¬ last ≤ t0 + trOff)
    (h2 : ¬ (wfSlice dates (t0 + trOff) (t0 + trOff + teOff)).length < minObs)
    (hperf : computePerformance cols
        (wfSlice dates (t0 + trOff) (t0 + trOff + teOff)) = Except.error e) :
    wfLoop cols dates last trOff teOff minObs (fuel + 1) t0
      = Except.error e := by
  simp only [wfLoop]
  rw [if_neg h1, if_neg h2, hperf]

theorem wfLoop_one_window (cols : List String) (dates : List ℤ)
    (trOff teOff : ℤ) (minObs fuel : ℕ)
    (start : ℤ) (htr : 0 < trOff) (hte : 0 < teOff)
    (hn : minObs ≤ (wfSlice dates (start + trOff) (start + trOff + teOff)).length)
    (hperf : computePerformance cols
        (wfSlice dates (start + trOff) (start + trOff + teOff)) = Except.ok ()) :
    wfLoop cols dates (start + trOff + teOff) trOff teOff minObs (fuel + 2) start
      = Except.ok [⟨start, start + trOff, start + trOff,
          start + trOff + teOff,
          (wfSlice dates (start + trOff) (start + trOff + teOff)).length⟩] := by
  have h1 : ¬ (start + trOff + teOff ≤ start + trOff) := by omega
  have h3 : ¬ (start + trOff + teOff ≤ start + teOff) := by omega
  have h4 : start + trOff + teOff ≤ (start + teOff) + trOff := by omega
  rw [show fuel + 2 = (fuel + 1) + 1 from rfl,
    wfLoop_emit cols dates (start + trOff + teOff) trOff teOff minObs (fuel + 1)
      start h1 (Nat.not_lt.mpr hn) hperf,
    if_neg h3,
    wfLoop_stop cols dates (start + trOff + teOff) trOff teOff minObs fuel
      (start + teOff) h4]
  rfl

/-- C9: walk-forward tiling.  First, on a well-formed input — the two
columns run_walkforward checks plus the two compute_performance requires
all present, whose last date is exactly start + train + test offsets (a
series spanning train_years + test_years of offset plus one day), with at
least 50 dates inside the test window, the first of them before the last
(so compute_performance evaluates without raising) — the evaluator emits
exactly one window, whose test_start equals train_start + the train
offset.  Second, a test window with fewer than minObs observations is
skipped with the cursor advancing by the test offset (no row emitted, no
evaluation attempted).  Third, the loop stops, emitting nothing, once the
next training window would end at or after the last available date. -/
theorem c9_walkforward_tiling :
    (∀ (cols : List String) (dates : List ℤ) (start yearLen tr te : ℤ),
      "date" ∈ cols → "strategy_ret" ∈ cols →
      "daily_ret" ∈ cols → "cumret" ∈ cols →
      0 < tr * yearLen → 0 < te * yearLen →
      (sortDates dates).max? = some (start + tr * yearLen + te * yearLen) →
      50 ≤ (wfSlice (sortDates dates) (start + tr * yearLen)
              (start + tr * yearLen + te * yearLen)).length →
      ¬ (wfSlice (sortDates dates) (start + tr * yearLen)
            (start + tr * yearLen + te * yearLen)).getLastD 0
          = (wfSlice (sortDates dates) (start + tr * yearLen)
              (start + tr * yearLen + te * yearLen)).headD 0 →
      runWalkforward cols dates start yearLen tr te
        = Except.ok [⟨start, start + tr * yearLen, start + tr * yearLen,
            start + tr * yearLen + te * yearLen,
            (wfSlice (sortDates dates) (start + tr * yearLen)
              (start + tr * yearLen + te * yearLen)).length⟩]) ∧
    (∀ (cols : List String) (dates : List ℤ) (last trOff teOff : ℤ)
      (minObs fuel : ℕ) (t0 : ℤ),
      ¬ last ≤ t0 + trOff →
      (wfSlice dates (t0 + trOff) (t0 + trOff + teOff)).length < minObs →
      wfLoop cols dates last trOff teOff minObs (fuel + 1) t0
        = if last ≤ t0 + teOff then Except.ok []
          else wfLoop cols dates last trOff teOff minObs fuel (t0 + teOff)) ∧
    (∀ (cols : List String) (dates : List ℤ) (last trOff teOff : ℤ)
      (minObs fuel : ℕ) (t0 : ℤ),
      last ≤ t0 + trOff →
      wfLoop cols dates last trOff teOff minObs (fuel + 1) t0
        = Except.ok []) := by
  refine ⟨?_, wfLoop_skip, wfLoop_stop⟩
  intro cols dates start yearLen tr te hdate hstr hdr hcr htr hte hmax hn hspan
  unfold runWalkforward
  rw [if_pos hdate, if_pos hstr, hmax]
  simp only [Option.getD_some]
  exact wfLoop_one_window cols (sortDates dates) (tr * yearLen)
    (te * yearLen) 50 dates.length start htr hte hn
    (computePerformance_ok cols _ hdr hcr hdate
      (List.ne_nil_of_length_pos (by omega)) hspan)

/-- Witness for `c9_walkforward_tiling`: 56 consecutive dates 0..55 with
yearLen 1, train_years 5, test_years 50 (so the series spans the 55 offset
days plus one day and the test window holds exactly 50 distinct dates),
on a table carrying all four required columns, plus concrete instances of
the skip clause and the stop clause. -/
theorem c9_witness :
    ("date" ∈ (["date", "strategy_ret", "daily_ret", "cumret"] : List String)) ∧
    ("strategy_ret" ∈ (["date", "strategy_ret", "daily_ret", "cumret"] : List String)) ∧
    ("daily_ret" ∈ (["date", "strategy_ret", "daily_ret", "cumret"] : List String)) ∧
    ("cumret" ∈ (["date", "strategy_ret", "daily_ret", "cumret"] : List String)) ∧
    ((0 : ℤ) < 5 * 1) ∧ ((0 : ℤ) < 50 * 1) ∧
    ((sortDates (intRange 0 56)).max? = some ((0 : ℤ) + 5 * 1 + 50 * 1)) ∧
    (50 ≤ (wfSlice (sortDates (intRange 0 56)) ((0 : ℤ) + 5 * 1)
            ((0 : ℤ) + 5 * 1 + 50 * 1)).length) ∧
    (¬ (wfSlice (sortDates (intRange 0 56)) ((0 : ℤ) + 5 * 1)
          ((0 : ℤ) + 5 * 1 + 50 * 1)).getLastD 0
        = (wfSlice (sortDates (intRange 0 56)) ((0 : ℤ) + 5 * 1)
            ((0 : ℤ) + 5 * 1 + 50 * 1)).headD 0) ∧
    (runWalkforward ["date", "strategy_ret", "daily_ret", "cumret"]
        (intRange 0 56) 0 1 5 50
      = Except.ok [⟨0, (0 : ℤ) + 5 * 1, (0 : ℤ) + 5 * 1,
          (0 : ℤ) + 5 * 1 + 50 * 1,
          (wfSlice (sortDates (intRange 0 56)) ((0 : ℤ) + 5 * 1)
            ((0 : ℤ) + 5 * 1 + 50 * 1)).length⟩]) ∧
    (¬ (1 : ℤ) ≤ 0 + 0) ∧
    ((wfSlice [] ((0 : ℤ) + 0) ((0 : ℤ) + 0 + 0)).length < 1) ∧
    (wfLoop [] [] 1 0 0 1 (0 + 1) 0
      = if (1 : ℤ) ≤ 0 + 0 then Except.ok []
        else wfLoop [] [] 1 0 0 1 0 (0 + 0)) ∧
    ((0 : ℤ) ≤ 0 + 0) ∧
    (wfLoop [] [] 0 0 0 0 (0 + 1) 0 = Except.ok []) :=
  ⟨by decide, by decide, by decide, by decide, by decide, by decide,
   by decide, by decide, by decide,
   c9_walkforward_tiling.1 ["date", "strategy_ret", "daily_ret", "cumret"]
     (intRange 0 56) 0 1 5 50
     (by decide) (by decide) (by decide) (by decide) (by decide) (by decide)
     (by decide) (by decide) (by decide),
   by decide, by decide,
   c9_walkforward_tiling.2.1 [] [] 1 0 0 1 0 0 (by decide) (by decide),
   by decide,
   c9_walkforward_tiling.2.2 [] [] 0 0 0 0 0 0 (by decide)⟩

/-- C10: the backtest output has a date column but no strategy_ret column,
so run_walkforward always rejects it with the missing-strategy_ret
ValueError regardless of the other arguments; more generally any table
lacking the date column or the strategy_ret column is rejected with one of
the two ValueErrors, so the pipeline composition in main.py never
evaluates a window. -/
theorem c10_missing_strategy_ret :
    ("date" ∈ backtestOutputCols ∧ "strategy_ret" ∉ backtestOutputCols) ∧
    (∀ (dates : List ℤ) (start yearLen tr te : ℤ),
      runWalkforward backtestOutputCols dates start yearLen tr te
        = Except.error "[WalkForward] df_results missing strategy_ret column") ∧
    (∀ (cols : List String) (dates : List ℤ) (start yearLen tr te : ℤ),
      "date" ∉ cols ∨ "strategy_ret" ∉ cols →
      runWalkforward cols dates start yearLen tr te
          = Except.error "[WalkForward] df_results missing date column" ∨
        runWalkforward cols dates start yearLen tr te
          = Except.error "[WalkForward] df_results missing strategy_ret column") := by
  refine ⟨⟨by decide, by decide⟩, ?_, ?_⟩
  · intro dates start yearLen tr te
    unfold runWalkforward
    rw [if_pos (show "date" ∈ backtestOutputCols by decide),
      if_neg (show ¬ "strategy_ret" ∈ backtestOutputCols by decide)]
  · intro cols dates start yearLen tr te h
    by_cases hd : "date" ∈ cols
    · have hs : "strategy_ret" ∉ cols := h.resolve_left (not_not_intro hd)
      right
      unfold runWalkforward
      rw [if_pos hd, if_neg hs]
    · left
      unfold runWalkforward
      rw [if_neg hd]

/-- Witness for `c10_missing_strategy_ret`: the actual backtest column list
is rejected at concrete arguments, and so is a table carrying the
daily_ret column (the name the backtest actually uses) in place of
strategy_ret. -/
theorem c10_witness :
    (runWalkforward backtestOutputCols [] 0 1 5 1
      = Except.error "[WalkForward] df_results missing strategy_ret column") ∧
    ("date" ∉ (["date", "daily_ret"] : List String) ∨
      "strategy_ret" ∉ (["date", "daily_ret"] : List String)) ∧
    (runWalkforward ["date", "daily_ret"] [] 0 1 5 1
        = Except.error "[WalkForward] df_results missing date column" ∨
      runWalkforward ["date", "daily_ret"] [] 0 1 5 1
        = Except.error "[WalkForward] df_results missing strategy_ret column") :=
  ⟨c10_missing_strategy_ret.2.1 [] 0 1 5 1,
   Or.inr (by decide),
   c10_missing_strategy_ret.2.2 ["date", "daily_ret"] [] 0 1 5 1
     (Or.inr (by decide))⟩

end Quantos
